import Mathlib

/-!
# Verification of the gaymwtf core world/chunk/object subsystem

A shallow embedding of the runtime core of a chunked 2D world engine:
the polymorphic object registry with its serialization round trip
(`src/core/object/object.rs`), the default actor hooks (`tick`,
`collision`), the chunk container (`src/core/chunk/chunk.rs`) and the
world update loop with actor migration and the global collision pass
(`src/core/world/world.rs`).

Modelling conventions:
* `f32` coordinates are embedded as rationals.  Every arithmetic
  operation appearing in the verified code paths (addition, subtraction,
  multiplication, division by the constant 256, `floor`, comparisons,
  `min`, dot products) is exact in `f32` on the concrete values used by
  the witnesses and counterexamples below, so the rational embedding
  agrees with the compiled program there.
* A `dyn Object` is embedded as the record of the state the generic
  code can observe through the trait: type tag, position, size and
  velocity.  The default method bodies (`Object::tick`,
  `Object::collision`) are embedded directly; `clone_box` is the
  identity copy on this record.
* `HashMap` (registry prototypes, `World::chunks`) is embedded as an
  association list with first-match lookup; `insert` on an existing key
  replaces the first matching entry in place.  The world code only ever
  inserts an absent key (`add_chunk`), or removes and reinserts a
  present key (which leaves the map semantically unchanged apart from
  the tracked value), so entry order is never observable.
* File system reads and `serde_json` are external collaborators; the
  serialization claims are settled at the level of the records the
  JSON layer transports (`ObjectData`, `WorldData`, chunk files), with
  a read/parse outcome embedded as nested `Option`s where a claim is
  about failure handling.
-/

namespace Gaymwtf

/-- Exact fraction arithmetic embedding the `f32` values that flow
through the verified code paths.  A value is the rational `num / den`;
fractions are never reduced (no gcd), so every operation below is a
plain integer computation the kernel can evaluate, and comparisons are
semantic, by cross-multiplication.  Every operation keeps `den`
positive when its operands have positive denominators, and every value
built by the embedded code starts from integer literals (`den = 1`).
On the dyadic in-range values appearing in the claims, witnesses and
counterexamples, `f32` arithmetic is exact, so this model agrees with
the compiled program there. -/
structure Q where
  num : ℤ
  den : ℤ
deriving DecidableEq, Repr

instance (n : ℕ) : OfNat Q n := ⟨⟨(n : ℤ), 1⟩⟩

instance : Neg Q := ⟨fun a => ⟨-a.num, a.den⟩⟩

instance : Add Q := ⟨fun a b => ⟨a.num * b.den + b.num * a.den, a.den * b.den⟩⟩

instance : Sub Q := ⟨fun a b => ⟨a.num * b.den - b.num * a.den, a.den * b.den⟩⟩

instance : Mul Q := ⟨fun a b => ⟨a.num * b.num, a.den * b.den⟩⟩

/-- Reciprocal, with the sign moved into the numerator so that the
denominator stays positive.  (Division by zero never occurs in the
embedded code: the only divisors are the positive constants 256 and 2.) -/
def Q.inv (a : Q) : Q := if a.num < 0 then ⟨-a.den, -a.num⟩ else ⟨a.den, a.num⟩

instance : Div Q := ⟨fun a b => a * b.inv⟩

instance : LT Q := ⟨fun a b => a.num * b.den < b.num * a.den⟩

instance : LE Q := ⟨fun a b => a.num * b.den ≤ b.num * a.den⟩

instance (a b : Q) : Decidable (a < b) := by
  show Decidable (a.num * b.den < b.num * a.den); infer_instance

instance (a b : Q) : Decidable (a ≤ b) := by
  show Decidable (a.num * b.den ≤ b.num * a.den); infer_instance

/-- `f32::min` (the operands are never NaN in the embedded code). -/
def Q.min (a b : Q) : Q := if a ≤ b then a else b

/-- `f32::floor` followed by the (exact) conversion to an integer:
floor division of the numerator by the positive denominator. -/
def Q.floor (a : Q) : ℤ := Int.fdiv a.num a.den

/-- Rust `as i32` on an `f32` value: truncation toward zero (saturation
at the `i32` bounds never occurs on the values considered). -/
def Q.trunc (a : Q) : ℤ := Int.tdiv a.num a.den

/-- 2D vector (embeds macroquad `Vec2`). -/
structure Vec2 where
  x : Q
  y : Q
deriving DecidableEq, Repr

instance : Add Vec2 := ⟨fun a b => ⟨a.x + b.x, a.y + b.y⟩⟩

instance : Sub Vec2 := ⟨fun a b => ⟨a.x - b.x, a.y - b.y⟩⟩

/-- Componentwise halving, embedding `screen_size / 2.0`. -/
def Vec2.half (v : Vec2) : Vec2 := ⟨v.x / 2, v.y / 2⟩

/-- `Vec2::dot`. -/
def Vec2.dot (a b : Vec2) : Q := a.x * b.x + a.y * b.y

@[simp] theorem Vec2.add_x (a b : Vec2) : (a + b).x = a.x + b.x := rfl

@[simp] theorem Vec2.add_y (a b : Vec2) : (a + b).y = a.y + b.y := rfl

@[simp] theorem Vec2.sub_x (a b : Vec2) : (a - b).x = a.x - b.x := rfl

@[simp] theorem Vec2.sub_y (a b : Vec2) : (a - b).y = a.y - b.y := rfl

/-- `TILE_SIZE` from `src/utils/settings.rs`. -/
def TILE_SIZE : Q := 16

/-- `CHUNK_SIZE` from `src/utils/settings.rs`. -/
def CHUNK_SIZE : ℕ := 16

/-- `CHUNK_PIXELS = TILE_SIZE * CHUNK_SIZE as f32` from `src/utils/settings.rs`. -/
def CHUNK_PIXELS : Q := TILE_SIZE * ⟨(CHUNK_SIZE : ℤ), 1⟩

/-- `OBJECT_ACTIVATION_MARGIN` from `src/utils/settings.rs`. -/
def OBJECT_ACTIVATION_MARGIN : Q := 100

/-- The trait-observable state of a `Box<dyn Object>` (an actor):
type tag, position, size, velocity, as exposed by the getters of the
`Object` trait in `src/core/object/object.rs`. -/
structure Obj where
  tag : String
  pos : Vec2
  size : Vec2
  vel : Vec2
deriving DecidableEq, Repr

/-- Default `Object::tick` body (`src/core/object/object.rs:24`):
`fn tick(&mut self, _dt: f32, _world: &mut World) {}` — it does
nothing to the receiver. -/
def objectTick (o : Obj) (_dt : Q) : Obj := o

/-- Default `Entity::tick` body (`src/core/entity/entity.rs:25-42`).
The `rand` calls are embedded as explicit parameters: `roll` is
`rand::rng().random_range(0..100)`, `axisHeads`/`dirHeads` are the two
`random_bool(0.5)` draws (`true` picks axis 0 / direction `1.0`). -/
def entityTick (e : Obj) (_dt : Q) (roll : Fin 100) (axisHeads dirHeads : Bool) : Obj :=
  let moved : Obj := { e with pos := e.pos + e.vel }
  if roll.val < 10 then
    let direction : Q := if dirHeads then 1 else -1
    let newVel : Vec2 :=
      if axisHeads then ⟨direction * 1, e.vel.y⟩ else ⟨e.vel.x, direction * 1⟩
    { moved with vel := newVel }
  else moved

/-- The guard of the default `Object::collision` body: the two bounding
boxes, each shrunk inward by the 1-unit `buffer` on every side, overlap
strictly on both axes (`src/core/object/object.rs:50-53`). -/
def shrunkOverlap (a b : Obj) : Prop :=
  a.pos.x + 1 < b.pos.x + b.size.x - 1 ∧
  a.pos.x + a.size.x - 1 > b.pos.x + 1 ∧
  a.pos.y + 1 < b.pos.y + b.size.y - 1 ∧
  a.pos.y + a.size.y - 1 > b.pos.y + 1

instance (a b : Obj) : Decidable (shrunkOverlap a b) := by
  unfold shrunkOverlap; infer_instance

/-- Default `Object::collision` body (`src/core/object/object.rs:33-70`),
run on the receiver `a` against `b`.  The body reads only `b`'s position
and size and performs no mutating call on `b`, which the embedding
reflects by returning the new receiver state only. -/
def collision (a b : Obj) : Obj :=
  let sLo : Vec2 := a.pos + ⟨1, 1⟩
  let sHi : Vec2 := a.pos + a.size - ⟨1, 1⟩
  let oLo : Vec2 := b.pos + ⟨1, 1⟩
  let oHi : Vec2 := b.pos + b.size - ⟨1, 1⟩
  if sLo.x < oHi.x ∧ sHi.x > oLo.x ∧ sLo.y < oHi.y ∧ sHi.y > oLo.y then
    let xOverlap := Q.min (sHi.x - oLo.x) (oHi.x - sLo.x)
    let yOverlap := Q.min (sHi.y - oLo.y) (oHi.y - sLo.y)
    let v := a.vel
    let newV : Vec2 :=
      if xOverlap < yOverlap then ⟨0, v.y⟩
      else if xOverlap > yOverlap then ⟨v.x, 0⟩
      else ⟨0, 0⟩
    { a with vel := newV }
  else a

/-- The record `ObjectData` written and read by the registry
serialization path (`src/core/object/object.rs:74-79`): type tag,
position and size — the format stores no velocity field. -/
structure ObjectData where
  type_tag : String
  pos : Vec2
  size : Vec2
deriving DecidableEq, Repr

/-- `ObjectRegistry`: tag-keyed prototype store
(`src/core/object/object.rs:81-119`), embedded as an association list. -/
abbrev ObjectRegistry := List (String × Obj)

/-- First-match lookup, embedding `HashMap::get`. -/
def ObjectRegistry.find? (r : ObjectRegistry) (tag : String) : Option Obj :=
  match r with
  | [] => none
  | e :: es => if e.1 = tag then some e.2 else ObjectRegistry.find? es tag

/-- `ObjectRegistry::register`: insert the prototype under its own type
tag, replacing a previous registration for that tag. -/
def ObjectRegistry.register (r : ObjectRegistry) (o : Obj) : ObjectRegistry :=
  match r with
  | [] => [(o.tag, o)]
  | e :: es => if e.1 = o.tag then (o.tag, o) :: es else e :: ObjectRegistry.register es o

/-- A registry is well formed when every stored prototype is keyed by
its own type tag — the only shape `register` can build. -/
def ObjectRegistry.WF (r : ObjectRegistry) : Prop :=
  ∀ e ∈ r, (e : String × Obj).2.tag = e.1

/-- `SerializableObject::serialize` for `dyn Object`
(`src/core/object/object.rs:125-134`): the record carries the type tag,
position and size of the instance (and nothing else); the JSON text
encoding of the record is the external `serde_json` layer. -/
def serializeObject (o : Obj) : ObjectData :=
  { type_tag := o.tag, pos := o.pos, size := o.size }

/-- `ObjectRegistry::deserialize_object`
(`src/core/object/object.rs:106-118`) applied to an already-parsed
record: look up the prototype by tag (error when absent), clone it, and
overwrite its position and size from the record. -/
def deserializeObject (r : ObjectRegistry) (d : ObjectData) : Except String Obj :=
  match r.find? d.type_tag with
  | none => .error ("Unknown object type: " ++ d.type_tag)
  | some proto => .ok { proto with pos := d.pos, size := d.size }

/-- A chunk (`src/core/chunk/chunk.rs:11-18`): its chunk-coordinate
position and its growable actor list.  The dense tile list and the
transient derived index lists (`visible_tiles`, `active_objects`,
recomputed every frame and never persisted) carry no state any claim
observes — tiles are immobile and their default `tick` is empty — so
they are not tracked; `bounds` is derived from `pos` once at
construction and is recomputed from `pos` here. -/
structure Chunk where
  pos : Vec2
  objects : List Obj
deriving DecidableEq, Repr

/-- The world-space bounding box `(min, max)` a chunk computes at
construction (`Chunk::new`, `src/core/chunk/chunk.rs:30-31`). -/
def Chunk.boundsMin (c : Chunk) : Vec2 := ⟨c.pos.x * CHUNK_PIXELS, c.pos.y * CHUNK_PIXELS⟩

def Chunk.boundsMax (c : Chunk) : Vec2 := c.boundsMin + ⟨CHUNK_PIXELS, CHUNK_PIXELS⟩

/-- `Chunk::is_visible` (`src/core/chunk/chunk.rs:85-93`). -/
def Chunk.isVisible (c : Chunk) (cameraPos screenSize : Vec2) : Prop :=
  let screenMin := cameraPos - screenSize.half
  let screenMax := cameraPos + screenSize.half
  ¬ (c.boundsMax.x < screenMin.x ∨ c.boundsMin.x > screenMax.x ∨
     c.boundsMax.y < screenMin.y ∨ c.boundsMin.y > screenMax.y)

instance (c : Chunk) (a b : Vec2) : Decidable (c.isVisible a b) := by
  unfold Chunk.isVisible; infer_instance

/-- `Chunk::update_active_objects` (`src/core/chunk/chunk.rs:120-131`):
indices of the actors whose position lies within the viewport expanded
by the activation margin. -/
def Chunk.activeObjects (c : Chunk) (cameraPos screenSize : Vec2) : List ℕ :=
  let screenMin := cameraPos - screenSize.half - ⟨OBJECT_ACTIVATION_MARGIN, OBJECT_ACTIVATION_MARGIN⟩
  let screenMax := cameraPos + screenSize.half + ⟨OBJECT_ACTIVATION_MARGIN, OBJECT_ACTIVATION_MARGIN⟩
  (c.objects.enum.filter fun e =>
    decide (screenMin.x ≤ e.2.pos.x ∧ e.2.pos.x ≤ screenMax.x ∧
            screenMin.y ≤ e.2.pos.y ∧ e.2.pos.y ≤ screenMax.y)).map (·.1)

/-- The actor-ticking loop of `Chunk::update`
(`src/core/chunk/chunk.rs:51-55`): for each active index, tick the
actor at that index if it still exists (`objects.get_mut`). -/
def tickObjectsAt (objs : List Obj) (dt : Q) (active : List ℕ) : List Obj :=
  active.foldl
    (fun os i =>
      match os[i]? with
      | some o => os.set i (objectTick o dt)
      | none => os)
    objs

/-- `Chunk::update` (`src/core/chunk/chunk.rs:43-62`): no-op when not
visible; otherwise recompute the active actor indices and tick each
active actor.  Tile ticking (the default `Tile::tick` body is empty)
and the transient index lists leave no observable state and are not
tracked. -/
def Chunk.update (c : Chunk) (cameraPos screenSize : Vec2) (dt : Q) : Chunk :=
  if c.isVisible cameraPos screenSize then
    { c with objects := tickObjectsAt c.objects dt (c.activeObjects cameraPos screenSize) }
  else c

/-- `World::chunks`: the coordinate-keyed chunk map, embedded as an
association list with first-match lookup. -/
abbrev ChunkMap := List ((ℤ × ℤ) × Chunk)

/-- `HashMap::get` on the chunk map. -/
def ChunkMap.find? (m : ChunkMap) (k : ℤ × ℤ) : Option Chunk :=
  match m with
  | [] => none
  | e :: es => if e.1 = k then some e.2 else ChunkMap.find? es k

/-- Replace the value stored under a present key (the net effect of the
`remove`-then-`insert` / `get_mut` patterns the world code uses on keys
it has just found); a miss leaves the map unchanged. -/
def ChunkMap.replace (m : ChunkMap) (k : ℤ × ℤ) (c : Chunk) : ChunkMap :=
  match m with
  | [] => []
  | e :: es => if e.1 = k then (k, c) :: es else e :: ChunkMap.replace es k c

/-- `HashMap::contains_key`. -/
def ChunkMap.contains (m : ChunkMap) (k : ℤ × ℤ) : Bool :=
  (m.find? k).isSome

/-- `World` (`src/core/world/world.rs:16-24`): the chunk map, the
transient visible-chunk list and the world name.  The three registries
and the draw batch hold no state the verified claims observe and are
kept outside the record (the registries are passed explicitly where the
code consumes them). -/
structure World where
  chunks : ChunkMap
  visibleChunks : List (ℤ × ℤ)
  worldName : String
deriving DecidableEq, Repr

/-- `World::new` (`src/core/world/world.rs:27-38`). -/
def World.new (name : String) : World :=
  { chunks := [], visibleChunks := [], worldName := name }

/-- `World::add_chunk` (`src/core/world/world.rs:40-45`): key the chunk
by `(chunk.pos.x as i32, chunk.pos.y as i32)` and insert only when the
key is absent. -/
def World.addChunk (w : World) (c : Chunk) : World :=
  let key : ℤ × ℤ := (c.pos.x.trunc, c.pos.y.trunc)
  if w.chunks.contains key then w
  else { w with chunks := w.chunks ++ [(key, c)] }

/-- `World::get_chunk_coords` (`src/core/world/world.rs:215-220`):
floor-division of a position by the chunk size in world units
(`.floor()` on an `f32` quotient followed by `as i32`, which is the
identity on the already-integral floor value). -/
def getChunkCoords (pos : Vec2) : ℤ × ℤ :=
  ((pos.x / CHUNK_PIXELS).floor, (pos.y / CHUNK_PIXELS).floor)

/-- `World::update_visible_chunks` (`src/core/world/world.rs:205-213`):
the 5×5 window of chunk coordinates centered on the camera chunk
(render distance 2), pushed row by row. -/
def visibleWindow (cameraChunk : ℤ × ℤ) : List (ℤ × ℤ) :=
  (List.range 5).flatMap fun (dy : ℕ) =>
    (List.range 5).map fun (dx : ℕ) =>
      (cameraChunk.1 + (dx : ℤ) - 2, cameraChunk.2 + (dy : ℤ) - 2)

/-- One pending actor migration recorded by the scan phase of
`World::update`: source chunk, destination chunk, index in the source
chunk's actor list. -/
structure Move where
  src : ℤ × ℤ
  dst : ℤ × ℤ
  idx : ℕ
deriving DecidableEq, Repr

/-- The per-chunk part of the migration scan
(`src/core/world/world.rs:89-94`): for each actor whose current
position maps to a different chunk coordinate, record a pending move. -/
def chunkMoves (cp : ℤ × ℤ) (ch : Chunk) : List Move :=
  (ch.objects.enum.filter fun e => decide (getChunkCoords e.2.pos ≠ cp)).map
    fun e => ⟨cp, getChunkCoords e.2.pos, e.1⟩

/-- The migration scan over the visible chunks
(`src/core/world/world.rs:86-96`). -/
def scanMoves (m : ChunkMap) (visible : List (ℤ × ℤ)) : List Move :=
  visible.flatMap fun cp =>
    match m.find? cp with
    | none => []
    | some ch => chunkMoves cp ch

/-- The strict-weak-order reading of the movement comparator
(`src/core/world/world.rs:98-104`): a move sorts strictly before
another only when both share a source chunk and it has the larger
index; moves of different source chunks compare `Equal`. -/
def moveLT (a b : Move) : Prop := a.src = b.src ∧ b.idx < a.idx

instance (a b : Move) : Decidable (moveLT a b) := by
  unfold moveLT; infer_instance

/-- Stable insertion of a move into an already-sorted list: the move
passes every element it does not compare strictly less than. -/
def insertMove (x : Move) : List Move → List Move
  | [] => [x]
  | y :: ys => if moveLT x y then x :: y :: ys else y :: insertMove x ys

/-- `movements.sort_by(..)` (`src/core/world/world.rs:98-104`).  The
comparator is not a total order (cross-chunk pairs compare `Equal`), so
the standard library pins the result only up to stable handling of
`Equal` pairs; on the scan's output — moves grouped by source chunk
with ascending indices — any such stable sort, modeled here as a stable
insertion sort, orders each source chunk's moves by descending index
and keeps the groups intact. -/
def sortMoves (l : List Move) : List Move :=
  l.foldl (fun acc x => insertMove x acc) []

/-- The migration-apply step for one recorded move
(`src/core/world/world.rs:106-118`): take the source chunk out of the
map; when the recorded index is still valid, remove the actor at it,
put the source chunk back, and append the actor to the destination
chunk when the destination key exists (otherwise the actor is dropped);
when the index is out of range, put the source chunk back unchanged. -/
def applyMove (m : ChunkMap) (mv : Move) : ChunkMap :=
  match m.find? mv.src with
  | none => m
  | some ch =>
    if h : mv.idx < ch.objects.length then
      let obj := ch.objects[mv.idx]
      let m1 := m.replace mv.src { ch with objects := ch.objects.eraseIdx mv.idx }
      match m1.find? mv.dst with
      | some ch2 => m1.replace mv.dst { ch2 with objects := ch2.objects ++ [obj] }
      | none => m1
    else m

/-- The migration-apply loop over the sorted batch. -/
def applyMoves (m : ChunkMap) (moves : List Move) : ChunkMap :=
  moves.foldl applyMove m

/-- The swept-box test of the global collision pass
(`src/core/world/world.rs:149-162`): each actor's bounding box advanced
one tick along its velocity, with strict overlap required on both
axes. -/
def willCollide (a b : Obj) : Prop :=
  let nextA := a.pos + a.vel
  let nextB := b.pos + b.vel
  nextA.x < nextB.x + b.size.x ∧
  nextA.x + a.size.x > nextB.x ∧
  nextA.y < nextB.y + b.size.y ∧
  nextA.y + a.size.y > nextB.y

instance (a b : Obj) : Decidable (willCollide a b) := by
  unfold willCollide; infer_instance

/-- The approach filter (`src/core/world/world.rs:164-168`): the dot
product of the relative velocity with the separation vector from the
first actor to the second is strictly positive. -/
def approaching (a b : Obj) : Prop :=
  (a.vel - b.vel).dot (b.pos - a.pos) > 0

instance (a b : Obj) : Decidable (approaching a b) := by
  unfold approaching; infer_instance

/-- Both collision-pass conditions (`will_collide && moving_towards_each_other`). -/
def collideCond (a b : Obj) : Prop := willCollide a b ∧ approaching a b

instance (a b : Obj) : Decidable (collideCond a b) := by
  unfold collideCond; infer_instance

/-- Processing of one index pair inside the pairwise loop of
`World::check_obj_collisions` (`src/core/world/world.rs:143-178`).
When both conditions hold, `obj1.collision(obj2)` runs first and
`obj2.collision(obj1)` second, the second call reading the first
receiver's already-updated state, exactly as the two sequential `&mut`
calls do.  The returned log records each delivered callback as
`(receiver index, other index)`. -/
def passPair (s : List Obj) (p : ℕ × ℕ) : List Obj × List (ℕ × ℕ) :=
  match s[p.1]?, s[p.2]? with
  | some o1, some o2 =>
    if collideCond o1 o2 then
      let s1 := s.set p.1 (collision o1 o2)
      let o1After := s1[p.1]?.getD o1
      (s1.set p.2 (collision o2 o1After), [(p.1, p.2), (p.2, p.1)])
    else (s, [])
  | _, _ => (s, [])

/-- The index pairs `(i, j)` with `i < j < n`, in the order the nested
loops of `check_obj_collisions` visit them. -/
def allPairs (n : ℕ) : List (ℕ × ℕ) :=
  (List.range n).flatMap fun i => (List.range' (i + 1) (n - (i + 1))).map fun j => (i, j)

/-- Run the pairwise loop over a list of index pairs, accumulating the
callback log. -/
def runPairs : List (ℕ × ℕ) → List Obj → List Obj × List (ℕ × ℕ)
  | [], s => (s, [])
  | p :: ps, s =>
    let r := passPair s p
    let rest := runPairs ps r.1
    (rest.1, r.2 ++ rest.2)

/-- One step of the drain phase of `check_obj_collisions`
(`src/core/world/world.rs:134-140`): `chunk.objects.drain(..)` empties
the chunk's actor list while the drained actors and their origin chunk
coordinate are appended to the two parallel working lists. -/
def drainStep (acc : ChunkMap × List Obj × List (ℤ × ℤ)) (cp : ℤ × ℤ) :
    ChunkMap × List Obj × List (ℤ × ℤ) :=
  match acc.1.find? cp with
  | some ch =>
    (acc.1.replace cp { ch with objects := [] },
     acc.2.1 ++ ch.objects,
     acc.2.2 ++ ch.objects.map fun _ => cp)
  | none => acc

/-- The drain phase of `check_obj_collisions`
(`src/core/world/world.rs:131-141`): move every actor out of every
visible chunk into one flat list, recording each actor's origin chunk
coordinate in a parallel list. -/
def drainVisible (m : ChunkMap) (visible : List (ℤ × ℤ)) :
    ChunkMap × List Obj × List (ℤ × ℤ) :=
  visible.foldl drainStep (m, [], [])

/-- The restore phase of `check_obj_collisions`
(`src/core/world/world.rs:180-184`): push every actor back into its
recorded origin chunk. -/
def pushBack (m : ChunkMap) (pairs : List (Obj × (ℤ × ℤ))) : ChunkMap :=
  pairs.foldl
    (fun m p =>
      match m.find? p.2 with
      | some ch => m.replace p.2 { ch with objects := ch.objects ++ [p.1] }
      | none => m)
    m

/-- `World::check_obj_collisions` (`src/core/world/world.rs:130-185`). -/
def World.checkObjCollisions (w : World) : World :=
  let d := drainVisible w.chunks w.visibleChunks
  let objs := d.2.1
  let objsAfter := (runPairs (allPairs objs.length) objs).1
  { w with chunks := pushBack d.1 (objsAfter.zip d.2.2) }

/-- The final loop of `World::update`
(`src/core/world/world.rs:122-128`): tick every visible chunk through
the remove–update–reinsert pattern (the chunk is taken out of the map,
updated, and reinserted under the same key, which the association-list
embedding expresses as an in-place replacement). -/
def tickVisibleChunks (m : ChunkMap) (visible : List (ℤ × ℤ))
    (cameraPos screenSize : Vec2) (dt : Q) : ChunkMap :=
  visible.foldl
    (fun m cp =>
      match m.find? cp with
      | some ch => m.replace cp (ch.update cameraPos screenSize dt)
      | none => m)
    m

/-- `World::update` (`src/core/world/world.rs:82-129`): recompute the
visible window, scan and sort the pending migrations, apply them, run
the global collision pass, then tick every visible chunk.  `dt` stands
for the external `get_frame_time()` frame clock. -/
def World.update (w : World) (cameraPos screenSize : Vec2) (dt : Q) : World :=
  let visible := visibleWindow (getChunkCoords cameraPos)
  let w2 : World :=
    { w with
        visibleChunks := visible,
        chunks := applyMoves w.chunks (sortMoves (scanMoves w.chunks visible)) }
  let w3 := w2.checkObjCollisions
  { w3 with chunks := tickVisibleChunks w3.chunks visible cameraPos screenSize dt }

/-- The world metadata record (`WorldData`, `src/core/world/world.rs:11-14`). -/
structure WorldData where
  name : String
deriving DecidableEq, Repr

/-- `World::load_world` (`src/core/world/world.rs:62-80`).  The file
system and `serde_json` are external: `worldFile` is the outcome of
reading then parsing `world.json` (`none` = read failure, `some none` =
parse failure), and each entry of `chunkFiles` is the outcome of
reading then `Chunk::deserialize`-ing one chunk file.  A chunk file
that fails either step is skipped; every successfully parsed chunk is
added through `add_chunk`. -/
def loadWorld (worldFile : Option (Option WorldData))
    (chunkFiles : List (Option (Option Chunk))) : Except String World :=
  match worldFile with
  | none => .error "failed to read world.json"
  | some none => .error "failed to parse world.json"
  | some (some wd) =>
    .ok (chunkFiles.foldl
      (fun w f =>
        match f with
        | some (some c) => w.addChunk c
        | _ => w)
      (World.new wd.name))

/-! ## General helper lemmas -/

/-- Setting an index to the element already stored there is the identity. -/
theorem set_getElem?_self {α : Type _} {l : List α} {n : ℕ} {a : α}
    (h : l[n]? = some a) : l.set n a = l := by
  induction l generalizing n with
  | nil => simp at h
  | cons x xs ih =>
    cases n with
    | zero => simp at h; simp [h]
    | succ k => simp only [List.getElem?_cons_succ] at h; simp [List.set_cons_succ, ih h]

/-- The default collision callback never changes the receiver's tag. -/
theorem collision_tag (a b : Obj) : (collision a b).tag = a.tag := by
  unfold collision; dsimp only; split <;> rfl

/-- The default collision callback never changes the receiver's position. -/
theorem collision_pos (a b : Obj) : (collision a b).pos = a.pos := by
  unfold collision; dsimp only; split <;> rfl

/-- The default collision callback never changes the receiver's size. -/
theorem collision_size (a b : Obj) : (collision a b).size = a.size := by
  unfold collision; dsimp only; split <;> rfl

/-- The default collision body reads only the other actor's position and
size, so two other-states agreeing there produce the same receiver. -/
theorem collision_congr_other (a : Obj) {x y : Obj}
    (hp : x.pos = y.pos) (hs : x.size = y.size) : collision a x = collision a y := by
  unfold collision; rw [hp, hs]

/-- Registry well-formedness: a successful lookup returns a prototype
tagged with the lookup key. -/
theorem ObjectRegistry.find?_tag {r : ObjectRegistry} (hw : r.WF) {t : String} {p : Obj}
    (hp : r.find? t = some p) : p.tag = t := by
  induction r with
  | nil => simp [ObjectRegistry.find?] at hp
  | cons e es ih =>
    rw [ObjectRegistry.find?] at hp
    by_cases h : e.1 = t
    · rw [if_pos h] at hp
      have := hw e (List.mem_cons_self e es)
      subst h
      cases hp
      exact this
    · rw [if_neg h] at hp
      exact ih (fun x hx => hw x (List.mem_cons_of_mem e hx)) hp

instance (r : ObjectRegistry) : Decidable r.WF := by
  unfold ObjectRegistry.WF; infer_instance

/-! ## C1 — serialization round trip for actors -/

/-- C1 (amended): with the actor's type tag registered and the registry
well formed, deserializing the serialized record yields an instance
with the same type tag, position and size; its velocity is the
registered prototype's velocity — the `ObjectData` record stores no
velocity field, so the instance's own velocity is not reproduced. -/
theorem c1_roundtrip (r : ObjectRegistry) (x p : Obj)
    (hw : r.WF) (hp : r.find? x.tag = some p) :
    deserializeObject r (serializeObject x) =
      Except.ok { tag := x.tag, pos := x.pos, size := x.size, vel := p.vel } := by
  have ht : p.tag = x.tag := ObjectRegistry.find?_tag hw hp
  unfold deserializeObject serializeObject
  dsimp only
  rw [hp]
  cases p
  cases ht
  rfl

def c1Proto : Obj := ⟨"slime", ⟨0, 0⟩, ⟨16, 16⟩, ⟨0, 0⟩⟩

def c1Registry : ObjectRegistry := ObjectRegistry.register [] c1Proto

def c1Actor : Obj := ⟨"slime", ⟨3, 4⟩, ⟨5, 6⟩, ⟨1, 0⟩⟩

/-- C1 (witness): the round trip on a concrete actor reproduces tag,
position and size, with the prototype's velocity. -/
theorem c1_roundtrip_witness :
    c1Registry.WF ∧ c1Registry.find? c1Actor.tag = some c1Proto ∧
    deserializeObject c1Registry (serializeObject c1Actor) =
      Except.ok { tag := c1Actor.tag, pos := c1Actor.pos, size := c1Actor.size,
                  vel := c1Proto.vel } :=
  ⟨by decide, by decide, c1_roundtrip c1Registry c1Actor c1Proto (by decide) (by decide)⟩

/-- C1 (counterexample): the claim as stated fails — a registered actor
whose velocity differs from its prototype's comes back with the
prototype's velocity, not its own. -/
theorem c1_velocity_lost :
    (deserializeObject c1Registry (serializeObject c1Actor)).toOption.map Obj.vel
      = some ⟨0, 0⟩ ∧
    c1Actor.vel = ⟨1, 0⟩ ∧ (⟨0, 0⟩ : Vec2) ≠ ⟨1, 0⟩ := by decide

/-! ## C9 — default per-tick movement -/

def c9Actor : Obj := ⟨"walker", ⟨0, 0⟩, ⟨16, 16⟩, ⟨1, 0⟩⟩

/-- C9 (counterexample): the default tick of the `Object` trait — the
actor trait the chunks and world actually store — is an empty body, so
an actor that does not override it does not advance by its velocity. -/
theorem c9_object_tick_is_noop :
    (objectTick c9Actor (1/60)).pos = ⟨0, 0⟩ ∧
    c9Actor.pos + c9Actor.vel = ⟨1, 0⟩ ∧
    (objectTick c9Actor (1/60)).pos ≠ c9Actor.pos + c9Actor.vel := by decide

/-- C9 (amended): an actor (`dyn Object`) that does not override the
default tick is left entirely unchanged by a tick; the parallel
`Entity` trait's default tick is the one that advances position by
velocity — independent of `dt` and of the random velocity
perturbation. -/
theorem c9_default_ticks (o : Obj) (dt : Q) (roll : Fin 100) (axisHeads dirHeads : Bool) :
    objectTick o dt = o ∧
    (entityTick o dt roll axisHeads dirHeads).pos = o.pos + o.vel := by
  refine ⟨rfl, ?_⟩
  unfold entityTick
  dsimp only
  split <;> rfl

/-! ## C10 — frame effect of the default collision callback -/

/-- C10: the default collision callback mutates at most the receiver's
velocity: tag, position and size are untouched (and the body performs
no mutating call on the other actor — it reads only `other`'s position
and size, see `collision`).  When the two 1-unit-shrunk boxes do not
strictly overlap on both axes the receiver is returned untouched;
otherwise the velocity change is a zeroing of the x component, of the
y component, or of both. -/
theorem c10_collision_frame (a b : Obj) :
    (collision a b).tag = a.tag ∧
    (collision a b).pos = a.pos ∧
    (collision a b).size = a.size ∧
    (¬ shrunkOverlap a b → collision a b = a) ∧
    (shrunkOverlap a b →
      (collision a b).vel = ⟨0, a.vel.y⟩ ∨ (collision a b).vel = ⟨a.vel.x, 0⟩ ∨
        (collision a b).vel = ⟨0, 0⟩) := by
  refine ⟨collision_tag a b, collision_pos a b, collision_size a b, ?_, ?_⟩ <;>
    · intro h
      unfold shrunkOverlap at h
      unfold collision
      dsimp only
      first
        | (rw [if_neg ?_]
           · simp only [Vec2.add_x, Vec2.sub_x, Vec2.add_y, Vec2.sub_y]
             exact fun hc => h ⟨hc.1, hc.2.1, hc.2.2.1, hc.2.2.2⟩)
        | (rw [if_pos ?_]
           · dsimp only
             split
             · exact Or.inl rfl
             · split
               · exact Or.inr (Or.inl rfl)
               · exact Or.inr (Or.inr rfl)
           · simpa using h)

def c10Receiver : Obj := ⟨"p", ⟨0, 0⟩, ⟨16, 16⟩, ⟨4, 0⟩⟩

def c10Other : Obj := ⟨"r", ⟨8, 0⟩, ⟨16, 16⟩, ⟨-3, 2⟩⟩

/-- C10 (witness): a concretely overlapping pair, for which the callback
zeroes the x component of the receiver's velocity and changes nothing
else. -/
theorem c10_collision_frame_witness :
    shrunkOverlap c10Receiver c10Other ∧
    ((collision c10Receiver c10Other).tag = c10Receiver.tag ∧
     (collision c10Receiver c10Other).pos = c10Receiver.pos ∧
     (collision c10Receiver c10Other).size = c10Receiver.size ∧
     (¬ shrunkOverlap c10Receiver c10Other → collision c10Receiver c10Other = c10Receiver) ∧
     (shrunkOverlap c10Receiver c10Other →
       (collision c10Receiver c10Other).vel = ⟨0, c10Receiver.vel.y⟩ ∨
       (collision c10Receiver c10Other).vel = ⟨c10Receiver.vel.x, 0⟩ ∨
       (collision c10Receiver c10Other).vel = ⟨0, 0⟩)) :=
  ⟨by decide, c10_collision_frame c10Receiver c10Other⟩

/-! ## C6 — `add_chunk` keying and idempotence -/

/-- C6 (amended): `add_chunk` keys the chunk by the *truncation toward
zero* of its position components (Rust `as i32`), not their floor; on a
fresh key the chunk is appended, and on an existing key the call is a
no-op, so the first writer wins. -/
theorem c6_add_chunk (w : World) (c : Chunk) :
    (w.chunks.find? (c.pos.x.trunc, c.pos.y.trunc) = none →
      (w.addChunk c).chunks
        = w.chunks ++ [((c.pos.x.trunc, c.pos.y.trunc), c)]) ∧
    (∀ ch, w.chunks.find? (c.pos.x.trunc, c.pos.y.trunc) = some ch →
      w.addChunk c = w) := by
  constructor
  · intro h
    unfold World.addChunk ChunkMap.contains
    dsimp only
    rw [h]
    rfl
  · intro ch h
    unfold World.addChunk ChunkMap.contains
    dsimp only
    rw [h]
    rfl

def c6FirstChunk : Chunk := ⟨⟨0, 0⟩, [⟨"kept", ⟨1, 1⟩, ⟨16, 16⟩, ⟨0, 0⟩⟩]⟩

def c6SecondChunk : Chunk := ⟨⟨1/2, 0⟩, []⟩

def c6World : World := ⟨[((0, 0), c6FirstChunk)], [], "w"⟩

/-- C6 (witness): a second chunk whose truncated position collides with
an occupied key is dropped and the first chunk's contents are
retained. -/
theorem c6_add_chunk_witness :
    c6World.chunks.find? (c6SecondChunk.pos.x.trunc, c6SecondChunk.pos.y.trunc)
      = some c6FirstChunk ∧
    c6World.addChunk c6SecondChunk = c6World ∧
    c6World.chunks.find? (0, 0) = some c6FirstChunk :=
  ⟨by decide, (c6_add_chunk c6World c6SecondChunk).2 c6FirstChunk (by decide), by decide⟩

def c6NegChunk : Chunk := ⟨⟨-1/2, 0⟩, []⟩

/-- C6 (counterexample): a chunk with a negative fractional position is
keyed by truncation toward zero — `(-0.5) as i32 = 0` — not by the
floor `-1` the claim states. -/
theorem c6_trunc_not_floor :
    (((World.new "w").addChunk c6NegChunk).chunks.find? (-1, 0) = none) ∧
    (((World.new "w").addChunk c6NegChunk).chunks.find? (0, 0) = some c6NegChunk) ∧
    (c6NegChunk.pos.x.floor, c6NegChunk.pos.y.floor) = ((-1 : ℤ), (0 : ℤ)) := by decide

/-! ## C5 — head-on scenario at two tiles per tick -/

def c5ActorA : Obj := ⟨"a", ⟨0, 0⟩, ⟨16, 16⟩, ⟨32, 0⟩⟩

def c5ActorB : Obj := ⟨"b", ⟨32, 0⟩, ⟨16, 16⟩, ⟨-32, 0⟩⟩

def c5World : World := ⟨[((0, 0), ⟨⟨0, 0⟩, [c5ActorA, c5ActorB]⟩)], [], "w"⟩

/-- C5 (code behavior at the spec scenario): two one-tile actors two
tiles apart on the x-axis, moving toward each other at two tiles per
tick, receive no collision callback — their boxes advanced one tick
along their velocities have already passed through each other and do
not overlap, so `will_collide` is false even though `approaching`
holds — and one `World::update` leaves both velocities unchanged at
`(±32, 0)` instead of zeroing the x components. -/
theorem c5_head_on_not_resolved :
    ((World.update c5World ⟨0, 0⟩ ⟨800, 600⟩ (1/60)).chunks.find? (0, 0)).map
        (fun ch => ch.objects.map Obj.vel) = some [⟨32, 0⟩, ⟨-32, 0⟩] ∧
    ¬ willCollide c5ActorA c5ActorB ∧
    approaching c5ActorA c5ActorB ∧
    ((0 : Q) < 32 ∧ (-32 : Q) < 0) := by decide

/-! ## C4 — both callbacks observe pre-collision state -/

/-- C4: when a pair passes both collision-pass conditions, the two
sequential callbacks `obj1.collision(obj2); obj2.collision(obj1)`
produce exactly the states of two simultaneous callbacks each computed
from the pre-collision pair: the first call mutates only its receiver's
velocity, and the second call reads only the other actor's position and
size, which that mutation does not touch — so neither call observes the
other's effect. -/
theorem c4_callbacks_observe_pre_state (s : List Obj) (i j : ℕ) (a b : Obj)
    (hi : s[i]? = some a) (hj : s[j]? = some b) (_hij : i ≠ j)
    (hc : collideCond a b) :
    (passPair s (i, j)).1 = (s.set i (collision a b)).set j (collision b a) := by
  have hilen : i < s.length := by
    rcases List.getElem?_eq_some_iff.mp hi with ⟨h, _⟩
    exact h
  unfold passPair
  dsimp only
  rw [hi, hj]
  dsimp only
  rw [if_pos hc]
  have hget : (s.set i (collision a b))[i]? = some (collision a b) := by
    rw [List.getElem?_set_self]
    simpa using hilen
  rw [hget]
  dsimp only [Option.getD]
  rw [collision_congr_other b (collision_pos a b) (collision_size a b)]

def c4ActorA : Obj := ⟨"p", ⟨0, 0⟩, ⟨16, 16⟩, ⟨4, 0⟩⟩

def c4ActorB : Obj := ⟨"q", ⟨18, 0⟩, ⟨16, 16⟩, ⟨-4, 0⟩⟩

/-- C4 (witness): a concrete colliding pair, processed by the pass
exactly as two simultaneous callbacks on the pre-collision states. -/
theorem c4_callbacks_observe_pre_state_witness :
    [c4ActorA, c4ActorB][0]? = some c4ActorA ∧
    [c4ActorA, c4ActorB][1]? = some c4ActorB ∧
    (0 : ℕ) ≠ 1 ∧ collideCond c4ActorA c4ActorB ∧
    (passPair [c4ActorA, c4ActorB] (0, 1)).1
      = (([c4ActorA, c4ActorB].set 0 (collision c4ActorA c4ActorB)).set 1
          (collision c4ActorB c4ActorA)) :=
  ⟨rfl, rfl, by decide, by decide,
    c4_callbacks_observe_pre_state [c4ActorA, c4ActorB] 0 1 c4ActorA c4ActorB rfl rfl
      (by decide) (by decide)⟩

/-! ## C8 — partial-failure-tolerant world loading -/

/-- Skipping failed chunk files in the load fold is the same as folding
`add_chunk` over the successfully parsed chunks only. -/
theorem loadWorld_skips_failures (cf : List (Option (Option Chunk))) (w : World) :
    cf.foldl
        (fun w f =>
          match f with
          | some (some c) => w.addChunk c
          | _ => w) w
      = (cf.filterMap fun f => f.bind id).foldl World.addChunk w := by
  induction cf generalizing w with
  | nil => rfl
  | cons f fs ih =>
    cases f with
    | none => simpa using ih w
    | some o =>
      cases o with
      | none => simpa using ih w
      | some c => simpa using ih (w.addChunk c)

/-- C8: `load_world` fails exactly when the world metadata file cannot
be read or parsed; when the metadata parses, the result is `Ok` and is
built by folding `add_chunk` over precisely the chunk files that read
and deserialize successfully — every failing chunk file is skipped and
every remaining one is loaded. -/
theorem c8_load_world (wf : Option (Option WorldData)) (cf : List (Option (Option Chunk))) :
    ((∃ e, loadWorld wf cf = .error e) ↔ (wf = none ∨ wf = some none)) ∧
    (∀ wd, wf = some (some wd) →
      loadWorld wf cf
        = .ok ((cf.filterMap fun f => f.bind id).foldl World.addChunk (World.new wd.name))) := by
  constructor
  · constructor
    · rintro ⟨e, he⟩
      match wf with
      | none => exact Or.inl rfl
      | some none => exact Or.inr rfl
      | some (some wd) => simp [loadWorld] at he
    · rintro (rfl | rfl) <;> exact ⟨_, rfl⟩
  · rintro wd rfl
    show Except.ok _ = _
    rw [loadWorld_skips_failures]

def c8ChunkA : Chunk := ⟨⟨0, 0⟩, []⟩

def c8ChunkB : Chunk := ⟨⟨1, 0⟩, []⟩

/-- One corrupted chunk file (`some none`: read ok, deserialize fails)
between two valid ones. -/
def c8Files : List (Option (Option Chunk)) :=
  [some (some c8ChunkA), some none, some (some c8ChunkB)]

/-- C8 (witness): a directory with one corrupted chunk file and two
valid ones yields `Ok` with exactly the two valid chunks. -/
theorem c8_load_world_witness :
    (some (some (⟨"demo"⟩ : WorldData)) : Option (Option WorldData)) = some (some ⟨"demo"⟩) ∧
    loadWorld (some (some ⟨"demo"⟩)) c8Files
      = .ok ((c8Files.filterMap fun f => f.bind id).foldl World.addChunk (World.new "demo")) ∧
    (c8Files.filterMap fun f => f.bind id) = [c8ChunkA, c8ChunkB] ∧
    (loadWorld (some (some ⟨"demo"⟩)) c8Files).toOption
      = some ⟨[((0, 0), c8ChunkA), ((1, 0), c8ChunkB)], [], "demo"⟩ :=
  ⟨rfl, (c8_load_world (some (some ⟨"demo"⟩)) c8Files).2 ⟨"demo"⟩ rfl, by decide, by decide⟩

/-! ## ChunkMap lemmas -/

theorem ChunkMap.find?_replace_eq (m : ChunkMap) (k : ℤ × ℤ) (c : Chunk) :
    (m.replace k c).find? k = (m.find? k).map fun _ => c := by
  induction m with
  | nil => rfl
  | cons e es ih =>
    by_cases he : e.1 = k <;>
      simp [ChunkMap.replace, ChunkMap.find?, he, ih]

theorem ChunkMap.find?_replace_ne (m : ChunkMap) (k k2 : ℤ × ℤ) (c : Chunk)
    (h : k2 ≠ k) : (m.replace k c).find? k2 = m.find? k2 := by
  induction m with
  | nil => rfl
  | cons e es ih =>
    by_cases he : e.1 = k
    · subst he
      simp [ChunkMap.replace, ChunkMap.find?, (Ne.symm h : ¬ e.1 = k2)]
    · by_cases he2 : e.1 = k2 <;>
        simp [ChunkMap.replace, ChunkMap.find?, he, he2, h, ih]

/-- Every actor stored anywhere in the chunk map, as a multiset. -/
def allObjects (m : ChunkMap) : Multiset Obj :=
  (m.map fun e => ((e.2.objects : List Obj) : Multiset Obj)).sum

theorem allObjects_replace (m : ChunkMap) (k : ℤ × ℤ) (c ch : Chunk)
    (h : m.find? k = some ch) :
    allObjects (m.replace k c) + (ch.objects : Multiset Obj)
      = allObjects m + (c.objects : Multiset Obj) := by
  induction m with
  | nil => simp [ChunkMap.find?] at h
  | cons e es ih =>
    rw [ChunkMap.find?] at h
    by_cases he : e.1 = k
    · rw [if_pos he] at h
      injection h with h
      subst h
      simp only [ChunkMap.replace, if_pos he, allObjects, List.map_cons, List.sum_cons]
      abel
    · rw [if_neg he] at h
      simp only [ChunkMap.replace, if_neg he, allObjects, List.map_cons, List.sum_cons]
      rw [add_assoc, add_assoc]
      exact congrArg (fun s => ((e.2.objects : List Obj) : Multiset Obj) + s) (ih h)

/-- Removing the element at a valid index splits off exactly that
element from the list's multiset. -/
theorem coe_eraseIdx_of_getElem? {α : Type _} (l : List α) (n : ℕ) (a : α)
    (h : l[n]? = some a) :
    (l : Multiset α) = a ::ₘ (l.eraseIdx n : Multiset α) := by
  induction l generalizing n with
  | nil => simp at h
  | cons x xs ih =>
    cases n with
    | zero =>
      rw [List.getElem?_cons_zero] at h
      injection h with h
      subst h
      rfl
    | succ k =>
      rw [List.getElem?_cons_succ] at h
      rw [List.eraseIdx_cons_succ]
      calc ((x :: xs : List α) : Multiset α) = x ::ₘ (xs : Multiset α) := by simp
        _ = x ::ₘ (a ::ₘ (xs.eraseIdx k : Multiset α)) := by rw [ih k h]
        _ = a ::ₘ (x ::ₘ (xs.eraseIdx k : Multiset α)) := Multiset.cons_swap x a _
        _ = a ::ₘ ((x :: xs.eraseIdx k : List α) : Multiset α) := by simp

/-- Replacing a chunk by itself minus the actor at a valid index
removes exactly that actor from the stored multiset. -/
theorem allObjects_replace_erase (m : ChunkMap) (src : ℤ × ℤ) (ch : Chunk) (idx : ℕ)
    (hs : m.find? src = some ch) (hidx : idx < ch.objects.length) :
    allObjects (m.replace src { ch with objects := ch.objects.eraseIdx idx })
        + {ch.objects[idx]}
      = allObjects m := by
  have herase : (ch.objects : Multiset Obj)
      = {ch.objects[idx]} + (ch.objects.eraseIdx idx : Multiset Obj) := by
    rw [Multiset.singleton_add]
    exact coe_eraseIdx_of_getElem? _ _ _ (List.getElem?_eq_getElem hidx)
  have hrep := allObjects_replace m src
    { ch with objects := ch.objects.eraseIdx idx } ch hs
  dsimp only at hrep
  rw [herase] at hrep
  apply add_right_cancel (b := (ch.objects.eraseIdx idx : Multiset Obj))
  rw [add_assoc]
  exact hrep

/-- Appending an actor to a stored chunk adds exactly that actor to
the stored multiset. -/
theorem allObjects_replace_push (m : ChunkMap) (dst : ℤ × ℤ) (ch2 : Chunk) (o : Obj)
    (hd : m.find? dst = some ch2) :
    allObjects (m.replace dst { ch2 with objects := ch2.objects ++ [o] })
      = allObjects m + {o} := by
  have hrep := allObjects_replace m dst
    { ch2 with objects := ch2.objects ++ [o] } ch2 hd
  dsimp only at hrep
  rw [show ((ch2.objects ++ [o] : List Obj) : Multiset Obj)
        = (ch2.objects : Multiset Obj) + {o} by
      rw [← Multiset.coe_add, Multiset.coe_singleton]] at hrep
  apply add_right_cancel (b := (ch2.objects : Multiset Obj))
  calc allObjects (m.replace dst { ch2 with objects := ch2.objects ++ [o] })
        + (ch2.objects : Multiset Obj)
      = allObjects m + ((ch2.objects : Multiset Obj) + {o}) := hrep
    _ = (allObjects m + {o}) + (ch2.objects : Multiset Obj) := by
        rw [← add_assoc, add_right_comm]

/-- One migration move never increases the stored-actor multiset. -/
theorem allObjects_applyMove_le (m : ChunkMap) (mv : Move) :
    allObjects (applyMove m mv) ≤ allObjects m := by
  unfold applyMove
  split
  · exact le_refl _
  · rename_i ch hs
    by_cases hidx : mv.idx < ch.objects.length
    · rw [dif_pos hidx]
      dsimp only
      have hsrc := allObjects_replace_erase m mv.src ch mv.idx hs hidx
      split
      · rename_i ch2 hd
        rw [allObjects_replace_push _ mv.dst ch2 _ hd, hsrc]
      · calc allObjects (m.replace mv.src { ch with objects := ch.objects.eraseIdx mv.idx })
            ≤ allObjects (m.replace mv.src { ch with objects := ch.objects.eraseIdx mv.idx })
                + {ch.objects[mv.idx]} := self_le_add_right _ _
          _ = allObjects m := hsrc
    · rw [dif_neg hidx]

/-- A batch of migration moves never increases the stored-actor multiset. -/
theorem allObjects_applyMoves_le (m : ChunkMap) (moves : List Move) :
    allObjects (applyMoves m moves) ≤ allObjects m := by
  induction moves generalizing m with
  | nil => exact le_refl _
  | cons mv rest ih =>
    calc allObjects (applyMoves (applyMove m mv) rest)
        ≤ allObjects (applyMove m mv) := ih _
      _ ≤ allObjects m := allObjects_applyMove_le m mv

/-! ## C7 — migration-apply safety -/

/-- C7: the migration-apply step is total and safe for any batch of
pending moves.  A move whose source chunk is absent, or whose recorded
index is no longer valid for the source chunk's actor list, leaves the
map unchanged (skipped silently, no out-of-bounds access).  A move with
a valid index whose destination chunk is absent removes the actor at
that index from its source chunk and inserts it nowhere: exactly one
copy of that actor disappears from the stored multiset.  And an
arbitrary batch of moves never makes the stored multiset grow. -/
theorem c7_migration_apply_safety (m : ChunkMap) (mv : Move) (moves : List Move) :
    (m.find? mv.src = none → applyMove m mv = m) ∧
    (∀ ch, m.find? mv.src = some ch → ch.objects.length ≤ mv.idx → applyMove m mv = m) ∧
    (∀ ch o, m.find? mv.src = some ch → ch.objects[mv.idx]? = some o →
      mv.dst ≠ mv.src → m.find? mv.dst = none →
      (applyMove m mv).find? mv.src
          = some { ch with objects := ch.objects.eraseIdx mv.idx } ∧
      allObjects (applyMove m mv) + {o} = allObjects m) ∧
    allObjects (applyMoves m moves) ≤ allObjects m := by
  refine ⟨?_, ?_, ?_, allObjects_applyMoves_le m moves⟩
  · intro h
    unfold applyMove
    rw [h]
  · intro ch hs hlen
    unfold applyMove
    rw [hs]
    dsimp only
    rw [dif_neg (not_lt.mpr hlen)]
  · intro ch o hs hget hne hd
    rcases List.getElem?_eq_some_iff.mp hget with ⟨hidx, rfl⟩
    have happly : applyMove m mv
        = m.replace mv.src { ch with objects := ch.objects.eraseIdx mv.idx } := by
      unfold applyMove
      rw [hs]
      dsimp only
      rw [dif_pos hidx]
      rw [ChunkMap.find?_replace_ne _ _ _ _ hne, hd]
    constructor
    · rw [happly, ChunkMap.find?_replace_eq, hs]
      rfl
    · rw [happly]
      exact allObjects_replace_erase m mv.src ch mv.idx hs hidx

def c7Actor : Obj := ⟨"lost", ⟨600, 0⟩, ⟨16, 16⟩, ⟨0, 0⟩⟩

def c7Map : ChunkMap := [((0, 0), ⟨⟨0, 0⟩, [c7Actor]⟩)]

def c7Move : Move := ⟨(0, 0), (2, 0), 0⟩

/-- C7 (witness): a concrete move to an absent destination chunk drops
the actor, and the batch bound holds for it. -/
theorem c7_migration_apply_safety_witness :
    c7Map.find? c7Move.src = some ⟨⟨0, 0⟩, [c7Actor]⟩ ∧
    (⟨⟨0, 0⟩, [c7Actor]⟩ : Chunk).objects[c7Move.idx]? = some c7Actor ∧
    c7Move.dst ≠ c7Move.src ∧
    c7Map.find? c7Move.dst = none ∧
    (applyMove c7Map c7Move).find? c7Move.src
        = some { pos := ⟨0, 0⟩,
                 objects := ([c7Actor].eraseIdx c7Move.idx : List Obj) } ∧
    allObjects (applyMove c7Map c7Move) + {c7Actor} = allObjects c7Map ∧
    allObjects (applyMoves c7Map [c7Move]) ≤ allObjects c7Map := by
  have h := c7_migration_apply_safety c7Map c7Move [c7Move]
  have hdrop := h.2.2.1 ⟨⟨0, 0⟩, [c7Actor]⟩ c7Actor (by decide) (by decide)
    (by decide) (by decide)
  exact ⟨by decide, by decide, by decide, by decide, hdrop.1, hdrop.2, h.2.2.2⟩

/-! ## C3 lemmas — the pairwise collision loop -/

theorem runPairs_cons (p : ℕ × ℕ) (ps : List (ℕ × ℕ)) (s : List Obj) :
    runPairs (p :: ps) s
      = ((runPairs ps (passPair s p).1).1,
         (passPair s p).2 ++ (runPairs ps (passPair s p).1).2) := rfl

theorem runPairs_append (l1 l2 : List (ℕ × ℕ)) (s : List Obj) :
    runPairs (l1 ++ l2) s
      = ((runPairs l2 (runPairs l1 s).1).1,
         (runPairs l1 s).2 ++ (runPairs l2 (runPairs l1 s).1).2) := by
  induction l1 generalizing s with
  | nil => simp [runPairs]
  | cons p ps ih =>
    rw [List.cons_append, runPairs_cons, runPairs_cons, ih]
    simp [List.append_assoc]

theorem passPair_length (s : List Obj) (p : ℕ × ℕ) :
    (passPair s p).1.length = s.length := by
  unfold passPair
  split
  · split
    · simp
    · rfl
  · rfl

theorem runPairs_length (ps : List (ℕ × ℕ)) (s : List Obj) :
    (runPairs ps s).1.length = s.length := by
  induction ps generalizing s with
  | nil => rfl
  | cons p ps ih =>
    rw [runPairs_cons]
    dsimp only
    rw [ih, passPair_length]

/-- The callback log of one pair step is either empty or exactly the
two receipts of that pair. -/
theorem passPair_log (s : List Obj) (p : ℕ × ℕ) :
    (passPair s p).2 = [] ∨ (passPair s p).2 = [(p.1, p.2), (p.2, p.1)] := by
  unfold passPair
  split
  · split
    · exact Or.inr rfl
    · exact Or.inl rfl
  · exact Or.inl rfl

/-- Every logged receipt comes from one of the processed pairs, in
given or swapped orientation. -/
theorem runPairs_log_mem (ps : List (ℕ × ℕ)) (s : List Obj) (q : ℕ × ℕ)
    (hq : q ∈ (runPairs ps s).2) : q ∈ ps ∨ (q.2, q.1) ∈ ps := by
  induction ps generalizing s with
  | nil => simp [runPairs] at hq
  | cons p ps ih =>
    rw [runPairs_cons] at hq
    dsimp only at hq
    rcases List.mem_append.mp hq with h | h
    · rcases passPair_log s p with he | he <;> rw [he] at h
      · simp at h
      · rcases List.mem_cons.mp h with rfl | h2
        · exact Or.inl (List.mem_cons_self _ _)
        · rcases List.mem_cons.mp h2 with rfl | h3
          · exact Or.inr (List.mem_cons_self _ _)
          · simp at h3
    · rcases ih _ h with h1 | h1
      · exact Or.inl (List.mem_cons_of_mem _ h1)
      · exact Or.inr (List.mem_cons_of_mem _ h1)

theorem mem_allPairs {n i j : ℕ} : (i, j) ∈ allPairs n ↔ i < j ∧ j < n := by
  unfold allPairs
  simp only [List.mem_flatMap, List.mem_map, List.mem_range, List.mem_range'_1,
    Prod.mk.injEq]
  constructor
  · rintro ⟨a, ha, b, ⟨hb1, hb2⟩, rfl, rfl⟩
    omega
  · rintro ⟨hij, hjn⟩
    exact ⟨i, by omega, j, ⟨by omega, by omega⟩, rfl, rfl⟩

theorem allPairs_nodup (n : ℕ) : (allPairs n).Nodup := by
  unfold allPairs
  rw [List.nodup_flatMap]
  constructor
  · intro i _
    exact (List.nodup_range' _ _).map fun a b hab => by
      injection hab
  · have := List.pairwise_lt_range n
    refine this.imp ?_
    intro a b hab
    intro q hqa hqb
    rcases List.mem_map.mp hqa with ⟨x, _, rfl⟩
    rcases List.mem_map.mp hqb with ⟨y, _, hy⟩
    injection hy with hy1 hy2
    omega

/-- The pairs the loop processes before it reaches `(i, j)`. -/
def pairsBefore (n i j : ℕ) : List (ℕ × ℕ) :=
  (allPairs n).takeWhile fun q => decide (q ≠ (i, j))

/-- Splitting the pair list at the first occurrence of a member. -/
theorem takeWhile_mem_split {α : Type _} [DecidableEq α] {l : List α} {a : α}
    (h : a ∈ l) :
    ∃ rest, l = l.takeWhile (fun x => decide (x ≠ a)) ++ a :: rest := by
  induction l with
  | nil => cases h
  | cons x xs ih =>
    by_cases hx : x = a
    · subst hx
      exact ⟨xs, by simp [List.takeWhile_cons]⟩
    · have hmem : a ∈ xs := by
        rcases List.mem_cons.mp h with h1 | h1
        · exact absurd h1.symm hx
        · exact h1
      rcases ih hmem with ⟨rest, hr⟩
      refine ⟨rest, ?_⟩
      rw [List.takeWhile_cons]
      rw [if_pos (by simp [hx])]
      rw [List.cons_append]
      exact congrArg (x :: ·) hr

/-- The per-pair state of the collision loop: the pair condition read
off the working list at indices `i` and `j`. -/
def condAt (s : List Obj) (i j : ℕ) : Prop :=
  match s[i]?, s[j]? with
  | some a, some b => collideCond a b
  | _, _ => False

instance (s : List Obj) (i j : ℕ) : Decidable (condAt s i j) := by
  unfold condAt
  rcases s[i]? with _ | a <;> rcases s[j]? with _ | b <;>
    first
      | exact isFalse (fun h => h)
      | (dsimp only; infer_instance)

/-- C3: in the global collision pass over the drained working list
`s`, the two actors of a pair `(i, j)` with `i < j` both receive a
collision callback if and only if the swept-box overlap test and the
strict-positive approach dot product hold of the pair's state at the
moment the nested loops reach `(i, j)` (the state after every earlier
pair has been processed); a pair failing either condition receives no
callback — neither actor is called with the other. -/
theorem c3_pair_callbacks (s : List Obj) (i j : ℕ) (hij : i < j) (hj : j < s.length) :
    (((i, j) ∈ (runPairs (allPairs s.length) s).2
        ↔ condAt (runPairs (pairsBefore s.length i j) s).1 i j) ∧
     ((j, i) ∈ (runPairs (allPairs s.length) s).2
        ↔ condAt (runPairs (pairsBefore s.length i j) s).1 i j)) := by
  have hmem : (i, j) ∈ allPairs s.length := mem_allPairs.mpr ⟨hij, hj⟩
  rcases takeWhile_mem_split hmem with ⟨rest, hsplit⟩
  have hBdef : pairsBefore s.length i j
      = (allPairs s.length).takeWhile (fun q => decide (q ≠ (i, j))) := rfl
  rw [← hBdef] at hsplit
  set B := pairsBefore s.length i j with hB
  set s1 := (runPairs B s).1 with hs1
  have hs1len : s1.length = s.length := runPairs_length B s
  have hi' : i < s1.length := by omega
  have hj' : j < s1.length := by omega
  have hgi : s1[(i, j).1]? = some s1[i] := List.getElem?_eq_getElem hi'
  have hgj : s1[(i, j).2]? = some s1[j] := List.getElem?_eq_getElem hj'
  have he : (passPair s1 (i, j)).2
      = if collideCond s1[i] s1[j] then [(i, j), (j, i)] else [] := by
    unfold passPair
    rw [hgi, hgj]
    dsimp only
    split
    · rfl
    · rfl
  have hcond : condAt s1 i j ↔ collideCond s1[i] s1[j] := by
    unfold condAt
    rw [show s1[i]? = some s1[i] from hgi, show s1[j]? = some s1[j] from hgj]
  have hBsub : ∀ q ∈ B, q ∈ allPairs s.length := by
    intro q hq
    rw [hsplit]
    exact List.mem_append.mpr (Or.inl hq)
  have hRsub : ∀ q ∈ rest, q ∈ allPairs s.length := by
    intro q hq
    rw [hsplit]
    exact List.mem_append.mpr (Or.inr (List.mem_cons_of_mem _ hq))
  have hnotB_ij : (i, j) ∉ B := by
    intro h
    have := List.mem_takeWhile_imp (hBdef ▸ h)
    simp at this
  have hnotB_ji : (j, i) ∉ B := by
    intro h
    have := mem_allPairs.mp (hBsub _ h)
    omega
  have hnotR_ij : (i, j) ∉ rest := by
    have hnd : (B ++ (i, j) :: rest).Nodup := hsplit ▸ allPairs_nodup s.length
    have := (List.nodup_cons.mp hnd.of_append_right).1
    exact this
  have hnotR_ji : (j, i) ∉ rest := by
    intro h
    have := mem_allPairs.mp (hRsub _ h)
    omega
  have hlogB : ∀ q, q ∈ (runPairs B s).2 → q ∈ B ∨ (q.2, q.1) ∈ B :=
    fun q h => runPairs_log_mem B s q h
  have hlogR : ∀ q t, q ∈ (runPairs rest t).2 → q ∈ rest ∨ (q.2, q.1) ∈ rest :=
    fun q t h => runPairs_log_mem rest t q h
  have htotal : (runPairs (allPairs s.length) s).2
      = (runPairs B s).2
        ++ ((passPair s1 (i, j)).2
            ++ (runPairs rest (passPair s1 (i, j)).1).2) := by
    rw [hsplit, runPairs_append, runPairs_cons]
  constructor
  · rw [htotal]
    simp only [List.mem_append]
    constructor
    · rintro (h | h | h)
      · rcases hlogB _ h with hh | hh
        · exact absurd hh hnotB_ij
        · exact absurd hh hnotB_ji
      · rw [he] at h
        by_cases hc : collideCond s1[i] s1[j]
        · exact hcond.mpr hc
        · rw [if_neg hc] at h
          simp at h
      · rcases hlogR _ _ h with hh | hh
        · exact absurd hh hnotR_ij
        · exact absurd hh hnotR_ji
    · intro h
      refine Or.inr (Or.inl ?_)
      rw [he, if_pos (hcond.mp h)]
      exact List.mem_cons_self _ _
  · rw [htotal]
    simp only [List.mem_append]
    constructor
    · rintro (h | h | h)
      · rcases hlogB _ h with hh | hh
        · exact absurd hh hnotB_ji
        · exact absurd hh hnotB_ij
      · rw [he] at h
        by_cases hc : collideCond s1[i] s1[j]
        · exact hcond.mpr hc
        · rw [if_neg hc] at h
          simp at h
      · rcases hlogR _ _ h with hh | hh
        · exact absurd hh hnotR_ji
        · exact absurd hh hnotR_ij
    · intro h
      refine Or.inr (Or.inl ?_)
      rw [he, if_pos (hcond.mp h)]
      exact List.mem_cons_of_mem _ (List.mem_cons_self _ _)

def c3ActorA : Obj := ⟨"p3", ⟨0, 0⟩, ⟨16, 16⟩, ⟨4, 0⟩⟩

def c3ActorB : Obj := ⟨"q3", ⟨18, 0⟩, ⟨16, 16⟩, ⟨-4, 0⟩⟩

/-- C3 (witness): a two-actor working list whose single pair passes
both conditions, so both callback receipts are logged. -/
theorem c3_pair_callbacks_witness :
    (0 : ℕ) < 1 ∧ 1 < ([c3ActorA, c3ActorB] : List Obj).length ∧
    ((((0, 1) ∈ (runPairs (allPairs ([c3ActorA, c3ActorB] : List Obj).length)
            [c3ActorA, c3ActorB]).2
        ↔ condAt (runPairs (pairsBefore ([c3ActorA, c3ActorB] : List Obj).length 0 1)
            [c3ActorA, c3ActorB]).1 0 1) ∧
      (((1, 0) ∈ (runPairs (allPairs ([c3ActorA, c3ActorB] : List Obj).length)
            [c3ActorA, c3ActorB]).2
        ↔ condAt (runPairs (pairsBefore ([c3ActorA, c3ActorB] : List Obj).length 0 1)
            [c3ActorA, c3ActorB]).1 0 1)))) :=
  ⟨by decide, by decide,
    c3_pair_callbacks [c3ActorA, c3ActorB] 0 1 (by decide) (by decide)⟩

/-! ## C2 stage 1 — list and sorting support lemmas -/

theorem getElem?_eraseIdx_lt {α : Type _} (l : List α) (n i : ℕ) (h : i < n) :
    (l.eraseIdx n)[i]? = l[i]? := by
  induction l generalizing n i with
  | nil => simp [List.eraseIdx]
  | cons x xs ih =>
    cases n with
    | zero => omega
    | succ m =>
      rw [List.eraseIdx_cons_succ]
      cases i with
      | zero => simp
      | succ k =>
        simp only [List.getElem?_cons_succ]
        exact ih m k (by omega)

theorem getElem?_eraseIdx_ge {α : Type _} (l : List α) (n i : ℕ) (h : n ≤ i) :
    (l.eraseIdx n)[i]? = l[i + 1]? := by
  induction l generalizing n i with
  | nil => simp [List.eraseIdx]
  | cons x xs ih =>
    cases n with
    | zero =>
      rw [List.eraseIdx_cons_zero, List.getElem?_cons_succ]
    | succ m =>
      rw [List.eraseIdx_cons_succ]
      cases i with
      | zero => omega
      | succ k =>
        simp only [List.getElem?_cons_succ]
        exact ih m k (by omega)

theorem enumFrom_pairwise_fst {α : Type _} (l : List α) (n : ℕ) :
    (l.enumFrom n).Pairwise fun a b => a.1 < b.1 := by
  induction l generalizing n with
  | nil => exact List.Pairwise.nil
  | cons x xs ih =>
    refine List.pairwise_cons.mpr ⟨?_, ih (n + 1)⟩
    intro y hy
    have : n + 1 ≤ y.1 ∧ xs[y.1 - (n + 1)]? = some y.2 :=
      List.mk_mem_enumFrom_iff_le_and_getElem?_sub.mp hy
    omega

theorem enum_pairwise_fst {α : Type _} (l : List α) :
    l.enum.Pairwise fun a b => a.1 < b.1 :=
  enumFrom_pairwise_fst l 0

/-- Every move the scan records for a chunk has that chunk as source. -/
theorem chunkMoves_src (cp : ℤ × ℤ) (ch : Chunk) :
    ∀ mv ∈ chunkMoves cp ch, mv.src = cp := by
  intro mv hmv
  rcases List.mem_map.mp hmv with ⟨e, _, rfl⟩
  rfl

/-- The scan records the moves of one chunk in ascending index order. -/
theorem chunkMoves_asc (cp : ℤ × ℤ) (ch : Chunk) :
    (chunkMoves cp ch).Pairwise fun a b => a.idx < b.idx := by
  unfold chunkMoves
  refine List.pairwise_map.mpr ?_
  exact ((enum_pairwise_fst ch.objects).filter _).imp fun h => h

/-- The recorded move of a mismatched actor is in its chunk's move list. -/
theorem chunkMoves_mem (cp : ℤ × ℤ) (ch : Chunk) (i : ℕ) (o : Obj)
    (hio : ch.objects[i]? = some o) (hne : getChunkCoords o.pos ≠ cp) :
    (⟨cp, getChunkCoords o.pos, i⟩ : Move) ∈ chunkMoves cp ch := by
  unfold chunkMoves
  refine List.mem_map.mpr ⟨(i, o), List.mem_filter.mpr ⟨?_, by simpa using hne⟩, rfl⟩
  exact List.mem_enum_iff_getElem?.mpr hio

/-- Decomposition of a scan move back into its source data. -/
theorem chunkMoves_sound (cp : ℤ × ℤ) (ch : Chunk) (mv : Move)
    (h : mv ∈ chunkMoves cp ch) :
    mv.src = cp ∧ ∃ o, ch.objects[mv.idx]? = some o ∧
      mv.dst = getChunkCoords o.pos ∧ mv.dst ≠ cp := by
  unfold chunkMoves at h
  rcases List.mem_map.mp h with ⟨e, he, rfl⟩
  rcases List.mem_filter.mp he with ⟨henum, hdec⟩
  refine ⟨rfl, e.2, ?_, rfl, by simpa using hdec⟩
  exact List.mem_enum_iff_getElem?.mp henum

theorem scanMoves_mem_of (m : ChunkMap) (vis : List (ℤ × ℤ)) (cp : ℤ × ℤ) (ch : Chunk)
    (i : ℕ) (o : Obj) (hcp : cp ∈ vis) (hch : m.find? cp = some ch)
    (hio : ch.objects[i]? = some o) (hne : getChunkCoords o.pos ≠ cp) :
    (⟨cp, getChunkCoords o.pos, i⟩ : Move) ∈ scanMoves m vis := by
  unfold scanMoves
  refine List.mem_flatMap.mpr ⟨cp, hcp, ?_⟩
  rw [hch]
  exact chunkMoves_mem cp ch i o hio hne

theorem scanMoves_sound (m : ChunkMap) (vis : List (ℤ × ℤ)) (mv : Move)
    (h : mv ∈ scanMoves m vis) :
    mv.src ∈ vis ∧ ∃ ch, m.find? mv.src = some ch ∧ ∃ o,
      ch.objects[mv.idx]? = some o ∧ mv.dst = getChunkCoords o.pos ∧ mv.dst ≠ mv.src := by
  unfold scanMoves at h
  rcases List.mem_flatMap.mp h with ⟨cp, hcp, hmem⟩
  cases hch : m.find? cp with
  | none => rw [hch] at hmem; cases hmem
  | some ch =>
    rw [hch] at hmem
    rcases chunkMoves_sound cp ch mv hmem with ⟨hsrc, o, hio, hdst, hne⟩
    subst hsrc
    exact ⟨hcp, ch, hch, o, hio, hdst, hne⟩

theorem mem_insertMove (x y : Move) (l : List Move) :
    x ∈ insertMove y l ↔ x = y ∨ x ∈ l := by
  induction l with
  | nil => simp [insertMove]
  | cons z zs ih =>
    unfold insertMove
    split
    · simp [List.mem_cons]
    · rw [List.mem_cons, ih, List.mem_cons]
      tauto

theorem mem_sortMoves_aux (l acc : List Move) (x : Move) :
    x ∈ l.foldl (fun a mv => insertMove mv a) acc ↔ x ∈ acc ∨ x ∈ l := by
  induction l generalizing acc with
  | nil => simp
  | cons mv rest ih =>
    rw [List.foldl_cons, ih, mem_insertMove]
    simp [List.mem_cons]
    tauto

theorem mem_sortMoves (l : List Move) (x : Move) : x ∈ sortMoves l ↔ x ∈ l := by
  unfold sortMoves
  rw [mem_sortMoves_aux]
  simp

/-! ## C2 stage 2 — what the stable sort does to the scan output -/

/-- Insertion passes over every element it does not sort strictly
before. -/
theorem insertMove_cons (x y : Move) (ys : List Move) :
    insertMove x (y :: ys) = if moveLT x y then x :: y :: ys else y :: insertMove x ys := rfl

theorem insertMove_skip (x : Move) (l1 l2 : List Move)
    (h : ∀ y ∈ l1, ¬ moveLT x y) :
    insertMove x (l1 ++ l2) = l1 ++ insertMove x l2 := by
  induction l1 with
  | nil => rfl
  | cons z zs ih =>
    rw [List.cons_append, insertMove_cons]
    rw [if_neg (h z (List.mem_cons_self _ _))]
    rw [ih fun y hy => h y (List.mem_cons_of_mem _ hy)]
    rw [List.cons_append]

/-- Folding one source chunk's ascending move block into an
accumulator made of a foreign part followed by the block's own
already-inserted part reverses the block in place. -/
theorem foldl_insert_block (block : List Move) (s : ℤ × ℤ)
    (hsrc : ∀ y ∈ block, y.src = s)
    (hasc : block.Pairwise fun a b => a.idx < b.idx) :
    ∀ acc1 acc2 : List Move,
      (∀ y ∈ acc1, y.src ≠ s) → (∀ y ∈ acc2, y.src = s) →
      (∀ y ∈ acc2, ∀ z ∈ block, y.idx < z.idx) →
      block.foldl (fun a mv => insertMove mv a) (acc1 ++ acc2)
        = acc1 ++ (block.reverse ++ acc2) := by
  induction block with
  | nil =>
    intro acc1 acc2 _ _ _
    simp
  | cons b bs ih =>
    intro acc1 acc2 h1 h2 h3
    rcases List.pairwise_cons.mp hasc with ⟨hball, htail⟩
    rw [List.foldl_cons]
    have hstep : insertMove b (acc1 ++ acc2) = acc1 ++ (b :: acc2) := by
      rw [insertMove_skip b acc1 acc2 ?_]
      · congr 1
        cases acc2 with
        | nil => rfl
        | cons y ys =>
          unfold insertMove
          rw [if_pos ?_]
          exact ⟨(hsrc b (List.mem_cons_self _ _)).trans
              (h2 y (List.mem_cons_self _ _)).symm,
            h3 y (List.mem_cons_self _ _) b (List.mem_cons_self _ _)⟩
      · intro y hy hlt
        exact h1 y hy (hlt.1 ▸ hsrc b (List.mem_cons_self _ _))
    rw [hstep]
    rw [ih (fun y hy => hsrc y (List.mem_cons_of_mem _ hy)) htail acc1 (b :: acc2)
        h1 ?_ ?_]
    · rw [List.reverse_cons, List.append_assoc]
      rfl
    · intro y hy
      rcases List.mem_cons.mp hy with rfl | hy2
      · exact hsrc y (List.mem_cons_self _ _)
      · exact h2 y hy2
    · intro y hy z hz
      rcases List.mem_cons.mp hy with rfl | hy2
      · exact hball z hz
      · exact h3 y hy2 z (List.mem_cons_of_mem _ hz)

theorem foldl_insert_block_closed (block : List Move) (s : ℤ × ℤ)
    (hsrc : ∀ y ∈ block, y.src = s)
    (hasc : block.Pairwise fun a b => a.idx < b.idx)
    (acc : List Move) (h1 : ∀ y ∈ acc, y.src ≠ s) :
    block.foldl (fun a mv => insertMove mv a) acc = acc ++ block.reverse := by
  have := foldl_insert_block block s hsrc hasc acc [] h1 (by simp) (by simp)
  simpa using this

/-- Folding the grouped scan output block by block reverses each block
in place. -/
theorem foldl_insert_blocks (vis : List (ℤ × ℤ)) (f : ℤ × ℤ → List Move)
    (hf : ∀ cp, ∀ y ∈ f cp, y.src = cp)
    (hasc : ∀ cp, (f cp).Pairwise fun a b => a.idx < b.idx) :
    ∀ acc : List Move, (∀ y ∈ acc, y.src ∉ vis) → vis.Nodup →
      (vis.flatMap f).foldl (fun a mv => insertMove mv a) acc
        = acc ++ vis.flatMap fun cp => (f cp).reverse := by
  induction vis with
  | nil =>
    intro acc _ _
    simp
  | cons cp rest ih =>
    intro acc hacc hnd
    rcases List.nodup_cons.mp hnd with ⟨hcp, hndr⟩
    rw [List.flatMap_cons, List.foldl_append]
    rw [foldl_insert_block_closed (f cp) cp (hf cp) (hasc cp) acc
        fun y hy hsrc => hacc y hy (hsrc ▸ List.mem_cons_self _ _)]
    rw [ih (acc ++ (f cp).reverse) ?_ hndr]
    · rw [List.flatMap_cons, List.append_assoc]
    · intro y hy hmem
      rcases List.mem_append.mp hy with hy1 | hy1
      · exact hacc y hy1 (List.mem_cons_of_mem _ hmem)
      · have : y.src = cp := hf cp y (List.mem_reverse.mp hy1)
        exact hcp (this ▸ hmem)

/-- Per-source strictly descending indices: the order the apply loop
must see within each source chunk. -/
def MovesDesc (moves : List Move) : Prop :=
  moves.Pairwise fun a b => a.src = b.src → b.idx < a.idx

/-- The scan output grouped per visible chunk. -/
def scanBlock (m : ChunkMap) (cp : ℤ × ℤ) : List Move :=
  match m.find? cp with
  | none => []
  | some ch => chunkMoves cp ch

theorem scanMoves_eq_flatMap (m : ChunkMap) (vis : List (ℤ × ℤ)) :
    scanMoves m vis = vis.flatMap (scanBlock m) := rfl

theorem scanBlock_src (m : ChunkMap) (cp : ℤ × ℤ) :
    ∀ y ∈ scanBlock m cp, y.src = cp := by
  unfold scanBlock
  cases m.find? cp with
  | none => intro y hy; cases hy
  | some ch => exact chunkMoves_src cp ch

theorem scanBlock_asc (m : ChunkMap) (cp : ℤ × ℤ) :
    (scanBlock m cp).Pairwise fun a b => a.idx < b.idx := by
  unfold scanBlock
  cases m.find? cp with
  | none => exact List.Pairwise.nil
  | some ch => exact chunkMoves_asc cp ch

/-- On the scan's grouped output, the stable sort yields per-source
strictly descending indices. -/
theorem sortMoves_scan_desc (m : ChunkMap) (vis : List (ℤ × ℤ)) (hnd : vis.Nodup) :
    MovesDesc (sortMoves (scanMoves m vis)) := by
  unfold sortMoves
  rw [scanMoves_eq_flatMap]
  rw [foldl_insert_blocks vis (scanBlock m) (scanBlock_src m) (scanBlock_asc m) []
      (by intro y hy; cases hy) hnd]
  rw [List.nil_append]
  unfold MovesDesc
  rw [List.pairwise_flatMap]
  constructor
  · intro cp _
    rw [List.pairwise_reverse]
    refine (scanBlock_asc m cp).imp ?_
    intro a b hlt _
    exact hlt
  · have hpne : vis.Pairwise (· ≠ ·) := hnd
    refine hpne.imp ?_
    intro cp1 cp2 hne x hx y hy hxy
    have hx1 : x.src = cp1 := scanBlock_src m cp1 x (List.mem_reverse.mp hx)
    have hy1 : y.src = cp2 := scanBlock_src m cp2 y (List.mem_reverse.mp hy)
    exact (hne (by rw [← hx1, ← hy1]; exact hxy)).elim

/-! ## C2 stage 3 — the migration invariant through the apply loop -/

/-- The C2 invariant over a coordinate set: every actor stored under a
coordinate of `vis` lies in the chunk computed from its current
position. -/
def MigrationInvariant (vis : List (ℤ × ℤ)) (m : ChunkMap) : Prop :=
  ∀ cp ∈ vis, ∀ ch, m.find? cp = some ch → ∀ o ∈ ch.objects, getChunkCoords o.pos = cp

/-- Scan completeness relative to the remaining moves: every
mismatched actor of a visible chunk is scheduled, at its current
index, among the remaining moves. -/
def ScanInv (vis : List (ℤ × ℤ)) (m : ChunkMap) (moves : List Move) : Prop :=
  ∀ cp ∈ vis, ∀ ch, m.find? cp = some ch → ∀ i o, ch.objects[i]? = some o →
    getChunkCoords o.pos = cp ∨ (⟨cp, getChunkCoords o.pos, i⟩ : Move) ∈ moves

/-- Validity of the remaining moves against the current map: each names
a stored source chunk, a valid index holding an actor whose computed
chunk is the move's (distinct) destination. -/
def MovesValid (m : ChunkMap) (moves : List Move) : Prop :=
  ∀ mv ∈ moves, ∃ ch, m.find? mv.src = some ch ∧ ∃ o,
    ch.objects[mv.idx]? = some o ∧ mv.dst = getChunkCoords o.pos ∧ mv.dst ≠ mv.src

/-- Applying a sorted, complete and valid batch of moves restores the
migration invariant on the visible set. -/
theorem applyMoves_inv (vis : List (ℤ × ℤ)) (moves : List Move) :
    ∀ m : ChunkMap, ScanInv vis m moves → MovesValid m moves → MovesDesc moves →
      MigrationInvariant vis (applyMoves m moves) := by
  induction moves with
  | nil =>
    intro m hA _ _ cp hcp ch hch o ho
    rcases List.mem_iff_getElem?.mp ho with ⟨i, hio⟩
    rcases hA cp hcp ch hch i o hio with hco | habs
    · exact hco
    · cases habs
  | cons mv rest ih =>
    intro m hA hB hD
    rcases hB mv (List.mem_cons_self _ _) with ⟨ch, hs, o, hget, hdst, hne⟩
    rcases List.getElem?_eq_some_iff.mp hget with ⟨hidx, hoeq⟩
    rcases List.pairwise_cons.mp hD with ⟨hDhead, hDtail⟩
    show MigrationInvariant vis (applyMoves (applyMove m mv) rest)
    have hm1src : (m.replace mv.src { ch with objects := ch.objects.eraseIdx mv.idx }).find?
        mv.src = some { ch with objects := ch.objects.eraseIdx mv.idx } := by
      rw [ChunkMap.find?_replace_eq, hs]
      rfl
    have hm1other : ∀ k, k ≠ mv.src →
        (m.replace mv.src { ch with objects := ch.objects.eraseIdx mv.idx }).find? k
          = m.find? k :=
      fun k hk => ChunkMap.find?_replace_ne _ _ _ _ hk
    -- reads from the shrunk source chunk are either consistent or still scheduled
    have hAsrc : mv.src ∈ vis → ∀ i o2,
        (ch.objects.eraseIdx mv.idx)[i]? = some o2 →
        getChunkCoords o2.pos = mv.src
          ∨ (⟨mv.src, getChunkCoords o2.pos, i⟩ : Move) ∈ rest := by
      intro hsv i o2 hio
      by_cases hi : i < mv.idx
      · rw [getElem?_eraseIdx_lt _ _ _ hi] at hio
        rcases hA mv.src hsv ch hs i o2 hio with hco | hmem
        · exact Or.inl hco
        · rcases List.mem_cons.mp hmem with heq | hmem2
          · exfalso
            have hieq : i = mv.idx := congrArg Move.idx heq
            omega
          · exact Or.inr hmem2
      · rw [getElem?_eraseIdx_ge _ _ _ (by omega)] at hio
        rcases hA mv.src hsv ch hs (i + 1) o2 hio with hco | hmem
        · exact Or.inl hco
        · rcases List.mem_cons.mp hmem with heq | hmem2
          · exfalso
            have hieq : i + 1 = mv.idx := congrArg Move.idx heq
            omega
          · exfalso
            have := hDhead _ hmem2 rfl
            dsimp only at this
            omega
    -- moves for the source chunk stay valid against the shrunk chunk
    have hBsrc : ∀ mv2 ∈ rest, mv2.src = mv.src → ∃ o0,
        ((ch.objects.eraseIdx mv.idx))[mv2.idx]? = some o0 ∧
          mv2.dst = getChunkCoords o0.pos ∧ mv2.dst ≠ mv2.src := by
      intro mv2 hmv2 hcs
      rcases hB mv2 (List.mem_cons_of_mem _ hmv2) with ⟨ch0, hs0, o0, hg0, hd0, hn0⟩
      rw [hcs] at hs0
      rw [hs0] at hs
      injection hs with hs
      subst hs
      have hlt : mv2.idx < mv.idx := hDhead mv2 hmv2 hcs.symm
      exact ⟨o0, by rw [getElem?_eraseIdx_lt _ _ _ hlt]; exact hg0, hd0, hn0⟩
    cases hd : (m.replace mv.src
        { ch with objects := ch.objects.eraseIdx mv.idx }).find? mv.dst with
    | none =>
      have happly : applyMove m mv
          = m.replace mv.src { ch with objects := ch.objects.eraseIdx mv.idx } := by
        unfold applyMove
        rw [hs]
        dsimp only
        rw [dif_pos hidx]
        rw [hd]
      rw [happly]
      refine ih _ ?_ ?_ hDtail
      · intro cp hcp ch3 hch3 i o2 hio
        by_cases hcs : cp = mv.src
        · subst hcs
          rw [hm1src] at hch3
          injection hch3 with hch3
          subst hch3
          exact hAsrc hcp i o2 hio
        · rw [hm1other cp hcs] at hch3
          rcases hA cp hcp ch3 hch3 i o2 hio with hco | hmem
          · exact Or.inl hco
          · rcases List.mem_cons.mp hmem with heq | hmem2
            · exact absurd (congrArg Move.src heq) hcs
            · exact Or.inr hmem2
      · intro mv2 hmv2
        by_cases hcs : mv2.src = mv.src
        · rcases hBsrc mv2 hmv2 hcs with ⟨o0, hg0, hd0, hn0⟩
          exact ⟨{ ch with objects := ch.objects.eraseIdx mv.idx },
            by rw [hcs]; exact hm1src, o0, hg0, hd0, hn0⟩
        · rcases hB mv2 (List.mem_cons_of_mem _ hmv2) with ⟨ch0, hs0, o0, hg0, hd0, hn0⟩
          exact ⟨ch0, by rw [hm1other _ hcs]; exact hs0, o0, hg0, hd0, hn0⟩
    | some ch2 =>
      have hmdst : m.find? mv.dst = some ch2 := by
        rw [← hm1other mv.dst hne]
        exact hd
      have happly : applyMove m mv
          = (m.replace mv.src { ch with objects := ch.objects.eraseIdx mv.idx }).replace
              mv.dst { ch2 with objects := ch2.objects ++ [ch.objects[mv.idx]] } := by
        unfold applyMove
        rw [hs]
        dsimp only
        rw [dif_pos hidx]
        rw [hd]
      rw [happly, hoeq]
      have hm2src : ((m.replace mv.src
            { ch with objects := ch.objects.eraseIdx mv.idx }).replace
              mv.dst { ch2 with objects := ch2.objects ++ [o] }).find? mv.src
          = some { ch with objects := ch.objects.eraseIdx mv.idx } := by
        rw [ChunkMap.find?_replace_ne _ _ _ _ (Ne.symm hne)]
        exact hm1src
      have hm2dst : ((m.replace mv.src
            { ch with objects := ch.objects.eraseIdx mv.idx }).replace
              mv.dst { ch2 with objects := ch2.objects ++ [o] }).find? mv.dst
          = some { ch2 with objects := ch2.objects ++ [o] } := by
        rw [ChunkMap.find?_replace_eq, hd]
        rfl
      have hm2other : ∀ k, k ≠ mv.src → k ≠ mv.dst →
          ((m.replace mv.src
            { ch with objects := ch.objects.eraseIdx mv.idx }).replace
              mv.dst { ch2 with objects := ch2.objects ++ [o] }).find? k
            = m.find? k := by
        intro k hk1 hk2
        rw [ChunkMap.find?_replace_ne _ _ _ _ hk2]
        exact hm1other k hk1
      refine ih _ ?_ ?_ hDtail
      · intro cp hcp ch3 hch3 i o2 hio
        by_cases hcs : cp = mv.src
        · subst hcs
          rw [hm2src] at hch3
          injection hch3 with hch3
          subst hch3
          exact hAsrc hcp i o2 hio
        · by_cases hcd : cp = mv.dst
          · subst hcd
            rw [hm2dst] at hch3
            injection hch3 with hch3
            subst hch3
            dsimp only at hio
            by_cases hi2 : i < ch2.objects.length
            · rw [List.getElem?_append_left hi2] at hio
              rcases hA mv.dst hcp ch2 hmdst i o2 hio with hco | hmem
              · exact Or.inl hco
              · rcases List.mem_cons.mp hmem with heq | hmem2
                · exact absurd (congrArg Move.src heq) hne
                · exact Or.inr hmem2
            · rw [List.getElem?_append_right (le_of_not_lt hi2)] at hio
              have hiz : i - ch2.objects.length = 0 := by
                by_contra hnz
                rcases Nat.exists_eq_succ_of_ne_zero hnz with ⟨k, hk⟩
                rw [hk] at hio
                simp at hio
              rw [hiz] at hio
              simp only [List.getElem?_cons_zero] at hio
              injection hio with hio
              subst hio
              exact Or.inl hdst.symm
          · rw [hm2other cp hcs hcd] at hch3
            rcases hA cp hcp ch3 hch3 i o2 hio with hco | hmem
            · exact Or.inl hco
            · rcases List.mem_cons.mp hmem with heq | hmem2
              · exact absurd (congrArg Move.src heq) hcs
              · exact Or.inr hmem2
      · intro mv2 hmv2
        by_cases hcs : mv2.src = mv.src
        · rcases hBsrc mv2 hmv2 hcs with ⟨o0, hg0, hd0, hn0⟩
          exact ⟨{ ch with objects := ch.objects.eraseIdx mv.idx },
            by rw [hcs]; exact hm2src, o0, hg0, hd0, hn0⟩
        · by_cases hcd : mv2.src = mv.dst
          · rcases hB mv2 (List.mem_cons_of_mem _ hmv2) with ⟨ch0, hs0, o0, hg0, hd0, hn0⟩
            rw [hcd] at hs0
            injection hs0.symm.trans hmdst with hch0
            rw [hch0] at hg0
            refine ⟨{ ch2 with objects := ch2.objects ++ [o] },
              by rw [hcd]; exact hm2dst, o0, ?_, hd0, hn0⟩
            dsimp only
            rw [List.getElem?_append_left]
            · exact hg0
            · exact (List.getElem?_eq_some_iff.mp hg0).1
          · rcases hB mv2 (List.mem_cons_of_mem _ hmv2) with ⟨ch0, hs0, o0, hg0, hd0, hn0⟩
            exact ⟨ch0, by rw [hm2other _ hcs hcd]; exact hs0, o0, hg0, hd0, hn0⟩

/-! ## C2 stage 4 — the invariant through the collision pass and ticks -/

theorem scan_sort_ScanInv (m : ChunkMap) (vis : List (ℤ × ℤ)) :
    ScanInv vis m (sortMoves (scanMoves m vis)) := by
  intro cp hcp ch hch i o hio
  by_cases hco : getChunkCoords o.pos = cp
  · exact Or.inl hco
  · refine Or.inr ?_
    rw [mem_sortMoves]
    exact scanMoves_mem_of m vis cp ch i o hcp hch hio hco

theorem scan_sort_MovesValid (m : ChunkMap) (vis : List (ℤ × ℤ)) :
    MovesValid m (sortMoves (scanMoves m vis)) := by
  intro mv hmv
  rw [mem_sortMoves] at hmv
  rcases scanMoves_sound m vis mv hmv with ⟨_, ch, hch, o, hio, hdst, hne⟩
  exact ⟨ch, hch, o, hio, hdst, hne⟩

theorem visibleWindow_nodup (cc : ℤ × ℤ) : (visibleWindow cc).Nodup := by
  unfold visibleWindow
  rw [List.nodup_flatMap]
  constructor
  · intro dy _
    have hinj : Function.Injective
        (fun dx : ℕ => (cc.1 + (dx : ℤ) - 2, cc.2 + (dy : ℤ) - 2)) := by
      intro a b hab
      injection hab with h1 h2
      omega
    exact List.Nodup.map hinj (List.nodup_range 5)
  · refine (List.pairwise_lt_range 5).imp ?_
    intro a b hab q hqa hqb
    rcases List.mem_map.mp hqa with ⟨x, _, rfl⟩
    rcases List.mem_map.mp hqb with ⟨y, _, hy⟩
    injection hy with hy1 hy2
    omega

/-- Replacing a stored chunk by one holding a subset of its actors
preserves the migration invariant. -/
theorem MigrationInvariant.replace_preserve (vis : List (ℤ × ℤ)) (m : ChunkMap)
    (k : ℤ × ℤ) (c ch : Chunk) (hfind : m.find? k = some ch)
    (hobj : ∀ o ∈ c.objects, o ∈ ch.objects)
    (h : MigrationInvariant vis m) : MigrationInvariant vis (m.replace k c) := by
  intro cp hcp ch2 hch2 o ho
  by_cases hk : cp = k
  · subst hk
    rw [ChunkMap.find?_replace_eq, hfind] at hch2
    injection hch2 with hch2
    subst hch2
    exact h cp hcp ch hfind o (hobj o ho)
  · rw [ChunkMap.find?_replace_ne _ _ _ _ hk] at hch2
    exact h cp hcp ch2 hch2 o ho

/-- Through the drain fold: every stored chunk keeps a subset of the
original chunk's actors, every drained (actor, origin) pair names an
original chunk that held the actor with the origin in scope, and the
two drained lists stay parallel. -/
theorem drain_fold_facts (m0 : ChunkMap) (vis0 : List (ℤ × ℤ)) :
    ∀ (vis2 : List (ℤ × ℤ)) (acc : ChunkMap × List Obj × List (ℤ × ℤ)),
      (∀ k ch2, acc.1.find? k = some ch2 → ∃ ch, m0.find? k = some ch ∧
        ∀ o ∈ ch2.objects, o ∈ ch.objects) →
      (∀ q ∈ acc.2.1.zip acc.2.2,
        ∃ ch, m0.find? q.2 = some ch ∧ q.1 ∈ ch.objects ∧ q.2 ∈ vis0) →
      acc.2.1.length = acc.2.2.length →
      (∀ cp ∈ vis2, cp ∈ vis0) →
      ((∀ k ch2, (vis2.foldl drainStep acc).1.find? k = some ch2 →
          ∃ ch, m0.find? k = some ch ∧ ∀ o ∈ ch2.objects, o ∈ ch.objects) ∧
       (∀ q ∈ (vis2.foldl drainStep acc).2.1.zip (vis2.foldl drainStep acc).2.2,
          ∃ ch, m0.find? q.2 = some ch ∧ q.1 ∈ ch.objects ∧ q.2 ∈ vis0) ∧
       (vis2.foldl drainStep acc).2.1.length = (vis2.foldl drainStep acc).2.2.length) := by
  intro vis2
  induction vis2 with
  | nil =>
    intro acc h1 h2 h3 _
    exact ⟨h1, h2, h3⟩
  | cons cp rest ih =>
    intro acc h1 h2 h3 hsub
    rw [List.foldl_cons]
    refine ih (drainStep acc cp) ?_ ?_ ?_ fun c hc => hsub c (List.mem_cons_of_mem _ hc)
    · unfold drainStep
      cases hf : acc.1.find? cp with
      | none => exact h1
      | some ch =>
        dsimp only
        intro k ch2 hk
        by_cases hkc : k = cp
        · subst hkc
          rw [ChunkMap.find?_replace_eq, hf] at hk
          injection hk with hk
          subst hk
          rcases h1 k ch hf with ⟨ch0, hch0, _⟩
          exact ⟨ch0, hch0, by intro o ho; cases ho⟩
        · rw [ChunkMap.find?_replace_ne _ _ _ _ hkc] at hk
          exact h1 k ch2 hk
    · unfold drainStep
      cases hf : acc.1.find? cp with
      | none => exact h2
      | some ch =>
        dsimp only
        intro q hq
        rw [List.zip_append h3] at hq
        rcases List.mem_append.mp hq with hq1 | hq1
        · exact h2 q hq1
        · rcases h1 cp ch hf with ⟨ch0, hch0, hsubch⟩
          rcases List.of_mem_zip hq1 with ⟨hqo, hqc⟩
          rcases List.mem_map.mp hqc with ⟨_, _, hqc2⟩
          refine ⟨ch0, ?_, hsubch q.1 hqo, ?_⟩
          · rw [← hqc2]
            exact hch0
          · rw [← hqc2]
            exact hsub cp (List.mem_cons_self _ _)
    · unfold drainStep
      cases hf : acc.1.find? cp with
      | none => exact h3
      | some ch =>
        dsimp only
        rw [List.length_append, List.length_append, List.length_map, h3]

/-- The drained map still satisfies the migration invariant. -/
theorem drainVisible_inv (vis : List (ℤ × ℤ)) (m : ChunkMap)
    (h : MigrationInvariant vis m) :
    MigrationInvariant vis (drainVisible m vis).1 := by
  have hf := drain_fold_facts m vis vis (m, [], [])
    (fun k ch2 hk => ⟨ch2, hk, fun o ho => ho⟩)
    (by intro q hq; simp at hq)
    rfl
    (fun c hc => hc)
  intro cp hcp ch hch o ho
  rcases hf.1 cp ch hch with ⟨ch0, hch0, hsub⟩
  exact h cp hcp ch0 hch0 o (hsub o ho)

/-- Every drained (actor, origin) pair of a map satisfying the
migration invariant is correctly chunked. -/
theorem drainVisible_pairs (vis : List (ℤ × ℤ)) (m : ChunkMap)
    (h : MigrationInvariant vis m) :
    ∀ q ∈ (drainVisible m vis).2.1.zip (drainVisible m vis).2.2,
      getChunkCoords (q : Obj × (ℤ × ℤ)).1.pos = q.2 := by
  have hf := drain_fold_facts m vis vis (m, [], [])
    (fun k ch2 hk => ⟨ch2, hk, fun o ho => ho⟩)
    (by intro q hq; simp at hq)
    rfl
    (fun c hc => hc)
  intro q hq
  rcases hf.2.1 q hq with ⟨ch, hch, hqo, hqv⟩
  exact h q.2 hqv ch hch q.1 hqo

theorem drainVisible_lengths (vis : List (ℤ × ℤ)) (m : ChunkMap) :
    (drainVisible m vis).2.1.length = (drainVisible m vis).2.2.length :=
  (drain_fold_facts m vis vis (m, [], [])
    (fun k ch2 hk => ⟨ch2, hk, fun o ho => ho⟩)
    (by intro q hq; simp at hq)
    rfl
    (fun c hc => hc)).2.2

/-- A pair step of the collision loop reassigns velocities only: the
position column of the working list is untouched. -/
theorem passPair_map_pos (s : List Obj) (p : ℕ × ℕ) :
    (passPair s p).1.map Obj.pos = s.map Obj.pos := by
  unfold passPair
  cases h1 : s[p.1]? with
  | none => rfl
  | some o1 =>
    cases h2 : s[p.2]? with
    | none => rfl
    | some o2 =>
      dsimp only
      split
      · have hmap1 : (s.set p.1 (collision o1 o2)).map Obj.pos = s.map Obj.pos := by
          rw [List.map_set, collision_pos]
          exact set_getElem?_self (by rw [List.getElem?_map, h1]; rfl)
        rw [List.map_set, collision_pos, hmap1]
        exact set_getElem?_self (by rw [List.getElem?_map, h2]; rfl)
      · rfl

/-- The whole collision loop leaves the position column unchanged. -/
theorem runPairs_map_pos (ps : List (ℕ × ℕ)) (s : List Obj) :
    (runPairs ps s).1.map Obj.pos = s.map Obj.pos := by
  induction ps generalizing s with
  | nil => rfl
  | cons p ps ih =>
    rw [runPairs_cons]
    dsimp only
    rw [ih, passPair_map_pos]

/-- Transfer a per-pair property along an equal position column. -/
theorem zip_pairs_of_map_eq {α β γ : Type _} (f : α → γ) (P : γ → β → Prop) :
    ∀ (l2 l : List α) (r : List β), l2.map f = l.map f →
      (∀ q ∈ l.zip r, P (f q.1) q.2) → ∀ q ∈ l2.zip r, P (f q.1) q.2 := by
  intro l2
  induction l2 with
  | nil =>
    intro l r _ _ q hq
    cases hq
  | cons x xs ih =>
    intro l r hm h q hq
    cases l with
    | nil => cases hm
    | cons y ys =>
      simp only [List.map_cons, List.cons.injEq] at hm
      cases r with
      | nil => cases hq
      | cons b bs =>
        rcases List.mem_cons.mp hq with rfl | hq2
        · have := h (y, b) (List.mem_cons_self _ _)
          dsimp only at this ⊢
          rw [hm.1]
          exact this
        · exact ih ys bs hm.2 (fun q2 hq2b => h q2 (List.mem_cons_of_mem _ hq2b)) q hq2

/-- Pushing back a correctly-chunked actor preserves the invariant. -/
theorem pushBack_inv (vis : List (ℤ × ℤ)) :
    ∀ (pairs : List (Obj × (ℤ × ℤ))) (m : ChunkMap),
      MigrationInvariant vis m →
      (∀ q ∈ pairs, getChunkCoords (q : Obj × (ℤ × ℤ)).1.pos = q.2) →
      MigrationInvariant vis (pushBack m pairs) := by
  intro pairs
  induction pairs with
  | nil =>
    intro m hm _
    exact hm
  | cons q rest ih =>
    intro m hm hp
    show MigrationInvariant vis (List.foldl _ _ rest)
    rw [show List.foldl _ (match m.find? q.2 with
        | some ch => m.replace q.2 { ch with objects := ch.objects ++ [q.1] }
        | none => m) rest = pushBack (match m.find? q.2 with
        | some ch => m.replace q.2 { ch with objects := ch.objects ++ [q.1] }
        | none => m) rest from rfl]
    refine ih _ ?_ fun q2 hq2 => hp q2 (List.mem_cons_of_mem _ hq2)
    cases hf : m.find? q.2 with
    | none => exact hm
    | some ch =>
      intro cp hcp ch2 hch2 o ho
      by_cases hk : cp = q.2
      · subst hk
        rw [ChunkMap.find?_replace_eq, hf] at hch2
        injection hch2 with hch2
        subst hch2
        dsimp only at ho
        rcases List.mem_append.mp ho with ho1 | ho1
        · exact hm q.2 hcp ch hf o ho1
        · rcases List.mem_cons.mp ho1 with rfl | habs
          · exact hp q (List.mem_cons_self _ _)
          · cases habs
      · rw [ChunkMap.find?_replace_ne _ _ _ _ hk] at hch2
        exact hm cp hcp ch2 hch2 o ho

/-- The global collision pass preserves the migration invariant: it
reassigns velocities but leaves every actor's position and per-chunk
storage (drain then push back to the recorded origin) intact. -/
theorem checkObjCollisions_inv (w : World)
    (h : MigrationInvariant w.visibleChunks w.chunks) :
    MigrationInvariant w.visibleChunks w.checkObjCollisions.chunks := by
  unfold World.checkObjCollisions
  dsimp only
  refine pushBack_inv w.visibleChunks _ _ (drainVisible_inv _ _ h) ?_
  refine zip_pairs_of_map_eq Obj.pos (fun v cp => getChunkCoords v = cp) _ _ _
    (runPairs_map_pos _ _) ?_
  exact drainVisible_pairs w.visibleChunks w.chunks h

/-- Ticking with the default actor tick leaves the actor list alone. -/
theorem tickObjectsAt_eq (objs : List Obj) (dt : Q) (active : List ℕ) :
    tickObjectsAt objs dt active = objs := by
  induction active generalizing objs with
  | nil => rfl
  | cons i rest ih =>
    have hstep : tickObjectsAt objs dt (i :: rest)
        = tickObjectsAt
            (match objs[i]? with
             | some o => objs.set i (objectTick o dt)
             | none => objs) dt rest := rfl
    rw [hstep]
    cases h : objs[i]? with
    | none => exact ih objs
    | some o =>
      show tickObjectsAt (objs.set i (objectTick o dt)) dt rest = objs
      rw [show objs.set i (objectTick o dt) = objs from set_getElem?_self h]
      exact ih objs

theorem Chunk.update_objects (c : Chunk) (cam scr : Vec2) (dt : Q) :
    (c.update cam scr dt).objects = c.objects := by
  unfold Chunk.update
  split
  · exact tickObjectsAt_eq _ _ _
  · rfl

/-- Ticking the visible chunks preserves the migration invariant. -/
theorem tickVisibleChunks_inv (vis : List (ℤ × ℤ)) (cam scr : Vec2) (dt : Q) :
    ∀ (vis2 : List (ℤ × ℤ)) (m : ChunkMap), MigrationInvariant vis m →
      MigrationInvariant vis (tickVisibleChunks m vis2 cam scr dt) := by
  intro vis2
  induction vis2 with
  | nil =>
    intro m hm
    exact hm
  | cons cp rest ih =>
    intro m hm
    have hstep : tickVisibleChunks m (cp :: rest) cam scr dt
        = tickVisibleChunks
            (match m.find? cp with
             | some ch => m.replace cp (ch.update cam scr dt)
             | none => m) rest cam scr dt := rfl
    rw [hstep]
    refine ih _ ?_
    cases hf : m.find? cp with
    | none => exact hm
    | some ch =>
      refine MigrationInvariant.replace_preserve vis m cp _ ch hf ?_ hm
      rw [Chunk.update_objects]
      exact fun o ho => ho

/-! ## C2 — the migration invariant after `World::update` -/

/-- C2 (amended): after `World::update`, every actor stored in a chunk
of the *visible window* lies in the chunk whose coordinate is the
floor-division of the actor's current position by the chunk size in
world units; an actor whose computed destination chunk was absent from
the map has been dropped and is stored nowhere.  (Actors in chunks
outside the visible window are never scanned and may stay
inconsistently stored — see the counterexample.) -/
theorem World.update_visibleChunks (w : World) (cameraPos screenSize : Vec2) (dt : Q) :
    (w.update cameraPos screenSize dt).visibleChunks
      = visibleWindow (getChunkCoords cameraPos) := rfl

theorem World.update_chunks (w : World) (cameraPos screenSize : Vec2) (dt : Q) :
    (w.update cameraPos screenSize dt).chunks
      = tickVisibleChunks
          (World.checkObjCollisions
            { w with
                visibleChunks := visibleWindow (getChunkCoords cameraPos),
                chunks := applyMoves w.chunks (sortMoves (scanMoves w.chunks
                  (visibleWindow (getChunkCoords cameraPos)))) }).chunks
          (visibleWindow (getChunkCoords cameraPos)) cameraPos screenSize dt := by
  unfold World.update
  dsimp only

theorem c2_migration_invariant (w : World) (cameraPos screenSize : Vec2) (dt : Q)
    (cp : ℤ × ℤ) (ch : Chunk)
    (hcp : cp ∈ (w.update cameraPos screenSize dt).visibleChunks)
    (hch : (w.update cameraPos screenSize dt).chunks.find? cp = some ch) :
    ∀ o ∈ ch.objects, getChunkCoords o.pos = cp := by
  rw [World.update_visibleChunks] at hcp
  rw [World.update_chunks] at hch
  have hI1 : MigrationInvariant (visibleWindow (getChunkCoords cameraPos))
      (applyMoves w.chunks (sortMoves (scanMoves w.chunks
        (visibleWindow (getChunkCoords cameraPos))))) :=
    applyMoves_inv _ _ w.chunks
      (scan_sort_ScanInv w.chunks _)
      (scan_sort_MovesValid w.chunks _)
      (sortMoves_scan_desc w.chunks _ (visibleWindow_nodup _))
  have hI2 := checkObjCollisions_inv
    { w with
        visibleChunks := visibleWindow (getChunkCoords cameraPos),
        chunks := applyMoves w.chunks (sortMoves (scanMoves w.chunks
          (visibleWindow (getChunkCoords cameraPos)))) } hI1
  have hI3 := tickVisibleChunks_inv (visibleWindow (getChunkCoords cameraPos))
    cameraPos screenSize dt (visibleWindow (getChunkCoords cameraPos)) _ hI2
  exact hI3 cp hcp ch hch

def c2FarActor : Obj := ⟨"far", ⟨0, 0⟩, ⟨16, 16⟩, ⟨0, 0⟩⟩

def c2World : World :=
  ⟨[((0, 0), ⟨⟨0, 0⟩, []⟩), ((3, 3), ⟨⟨3, 3⟩, [c2FarActor]⟩)], [], "w"⟩

/-- C2 (counterexample to the claim over *all* chunks): an actor stored
in the non-visible chunk `(3,3)` whose position maps to the existing
chunk `(0,0)` stays misfiled after `World::update` — its destination
chunk exists, so it is not the documented drop exception. -/
theorem c2_nonvisible_not_migrated :
    ((World.update c2World ⟨0, 0⟩ ⟨800, 600⟩ (1/60)).chunks.find? (3, 3)).map Chunk.objects
      = some [c2FarActor] ∧
    getChunkCoords c2FarActor.pos = (0, 0) ∧
    ((0, 0) : ℤ × ℤ) ≠ (3, 3) ∧
    ((World.update c2World ⟨0, 0⟩ ⟨800, 600⟩ (1/60)).chunks.find? (0, 0)).isSome = true ∧
    (3, 3) ∉ (World.update c2World ⟨0, 0⟩ ⟨800, 600⟩ (1/60)).visibleChunks := by decide

def c2MisActor : Obj := ⟨"mis", ⟨300, 0⟩, ⟨16, 16⟩, ⟨0, 0⟩⟩

def c2WitWorld : World :=
  ⟨[((0, 0), ⟨⟨0, 0⟩, [c2MisActor]⟩), ((1, 0), ⟨⟨1, 0⟩, []⟩)], [], "w"⟩

/-- C2 (witness): a misfiled actor in a visible chunk is migrated to
the chunk computed from its position, which then satisfies the
invariant. -/
theorem c2_migration_invariant_witness :
    (1, 0) ∈ (World.update c2WitWorld ⟨0, 0⟩ ⟨800, 600⟩ (1/60)).visibleChunks ∧
    (World.update c2WitWorld ⟨0, 0⟩ ⟨800, 600⟩ (1/60)).chunks.find? (1, 0)
      = some ⟨⟨1, 0⟩, [c2MisActor]⟩ ∧
    ((World.update c2WitWorld ⟨0, 0⟩ ⟨800, 600⟩ (1/60)).chunks.find? (0, 0)).map
        Chunk.objects = some [] ∧
    ∀ o ∈ (⟨⟨1, 0⟩, [c2MisActor]⟩ : Chunk).objects, getChunkCoords o.pos = (1, 0) :=
  ⟨by decide, by decide, by decide,
    c2_migration_invariant c2WitWorld ⟨0, 0⟩ ⟨800, 600⟩ (1/60) (1, 0) _
      (by decide) (by decide)⟩

end Gaymwtf
